import Mathlib

/-!
# Verification of CrystFEL core claims

A shallow embedding, in Lean 4, of the parts of the CrystFEL serial
crystallography engine that the specification's claims are about:

* the partiality model (spec §4.D; the partiality function itself lives in
  `geometry.c`, which is not part of this source snapshot, so it is modelled
  from the specification),
* the unit-cell representation conversions (`cell.c`),
* the range-mode worker pool (`thread-pool.c`), modelled as a small-step
  transition system over all interleavings,
* the scalable/refinable selection passes of `partialator.c`,
* the zaef peak search (`peaks.c`).

Floating-point `double` arithmetic is modelled by exact arithmetic: `ℚ` where
the code only adds, multiplies, divides and compares, and `ℝ` where the code
uses `sin`, `cos`, `sqrt` and `acos`.
-/

namespace CrystFEL

/-! ## Partiality model (spec §4.D)

The partiality function is implemented in `geometry.c`, which is not included
in this snapshot (only its callers, e.g. `scan_partialities` in
`tests/pr_gradient_check.c`, are).  It is therefore modelled from the spec. -/

/-- Modelled from the spec: each excitation-error extremum is clamped to the
range `[-r_p, +r_p]` ("Let r₁, r₂ be the signed excitation-error extrema of
the rlp sphere against the two Ewald spheres, each clamped to ±r_p"). -/
def clampToPR (rp r : ℚ) : ℚ := max (-rp) (min rp r)

/-- Modelled from the spec: the `clamp_low` flag records that the lower
extremum was clamped (at `-r_p`); set exactly when `r₁ ≤ -r_p`, so that
`r₁ = -r_p` exactly sets the flag (spec scenario 6). -/
def clampLowFlag (rp r1 : ℚ) : Bool := r1 ≤ -rp

/-- Modelled from the spec: the `clamp_high` flag records that the upper
extremum was clamped (at `+r_p`); set exactly when `r₂ ≥ +r_p`. -/
def clampHighFlag (rp r2 : ℚ) : Bool := rp ≤ r2

/-- Modelled from the spec: the partiality function.  With the clamped
extrema `r₁`, `r₂`, let `s = (r₁+r₂)/(2·r_p)`; then `p = 0.5·(3q - q³)` with
`q = 1 - |s|` if `|s| ≤ 1`, and `p = 0` otherwise. -/
def partiality (rp r1 r2 : ℚ) : ℚ :=
  let r1c := clampToPR rp r1
  let r2c := clampToPR rp r2
  let s := (r1c + r2c) / (2 * rp)
  if |s| ≤ 1 then
    let q := 1 - |s|
    (3 * q - q ^ 3) / 2
  else 0

theorem clampToPR_le (rp r : ℚ) (h : 0 < rp) : clampToPR rp r ≤ rp := by
  unfold clampToPR
  rcases le_total rp r with hr | hr
  · simp [min_eq_left hr, max_le_iff]
    linarith
  · simp [min_eq_right hr, max_le_iff]
    exact ⟨by linarith, hr⟩

theorem neg_le_clampToPR (rp r : ℚ) : -rp ≤ clampToPR rp r := le_max_left _ _

/-- Helper: for `q ∈ [0,1]`, `(3q - q³)/2 ∈ [0,1]`. -/
theorem cubic_partiality_bounds (q : ℚ) (h0 : 0 ≤ q) (h1 : q ≤ 1) :
    0 ≤ (3 * q - q ^ 3) / 2 ∧ (3 * q - q ^ 3) / 2 ≤ 1 := by
  constructor
  · nlinarith [sq_nonneg q, sq_nonneg (1 - q)]
  · nlinarith [sq_nonneg (1 - q), mul_nonneg (mul_nonneg h0 h0) h0]

/-- Helper: the partiality always lies in `[0,1]`. -/
theorem partiality_mem_unit (rp r1 r2 : ℚ) (hrp : 0 < rp) :
    0 ≤ partiality rp r1 r2 ∧ partiality rp r1 r2 ≤ 1 := by
  unfold partiality
  set r1c := clampToPR rp r1 with hr1c
  set r2c := clampToPR rp r2 with hr2c
  have h1l : -rp ≤ r1c := neg_le_clampToPR rp r1
  have h1u : r1c ≤ rp := clampToPR_le rp r1 hrp
  have h2l : -rp ≤ r2c := neg_le_clampToPR rp r2
  have h2u : r2c ≤ rp := clampToPR_le rp r2 hrp
  have hs : |(r1c + r2c) / (2 * rp)| ≤ 1 := by
    rw [abs_div, abs_of_pos (by linarith : (0:ℚ) < 2 * rp), div_le_one (by linarith)]
    rw [abs_le]
    constructor <;> linarith
  simp only [hs, if_true]
  have hq0 : 0 ≤ 1 - |(r1c + r2c) / (2 * rp)| := by linarith
  have hq1 : 1 - |(r1c + r2c) / (2 * rp)| ≤ 1 := by
    have := abs_nonneg ((r1c + r2c) / (2 * rp))
    linarith
  exact cubic_partiality_bounds _ hq0 hq1

/-- Helper: when both clamp flags are set the partiality is exactly 1. -/
theorem partiality_both_clamped (rp r1 r2 : ℚ) (hrp : 0 < rp)
    (hlo : clampLowFlag rp r1 = true) (hhi : clampHighFlag rp r2 = true) :
    partiality rp r1 r2 = 1 := by
  have h1 : r1 ≤ -rp := by simpa [clampLowFlag, decide_eq_true_iff] using hlo
  have h2 : rp ≤ r2 := by simpa [clampHighFlag, decide_eq_true_iff] using hhi
  have hr1c : clampToPR rp r1 = -rp := by
    unfold clampToPR
    have : min rp r1 = r1 := min_eq_right (by linarith)
    rw [this, max_eq_left h1]
  have hr2c : clampToPR rp r2 = rp := by
    unfold clampToPR
    have : min rp r2 = rp := min_eq_left h2
    rw [this, max_eq_right (by linarith)]
  unfold partiality
  rw [hr1c, hr2c]
  norm_num

/-- C1: the partiality computed from the clamped excitation-error extrema lies
in `[0,1]`; whenever both `clamp_low` and `clamp_high` are set the partiality
equals 1.0 (hence ≥ 0.999); in particular for `r₁ = -r_p`, `r₂ = +r_p` exactly
the partiality is 1.0 and both clamp flags are set. -/
theorem partiality_bounds_and_clamped (rp r1 r2 : ℚ) (hrp : 0 < rp) :
    (0 ≤ partiality rp r1 r2 ∧ partiality rp r1 r2 ≤ 1) ∧
    (clampLowFlag rp r1 = true → clampHighFlag rp r2 = true →
      partiality rp r1 r2 = 1 ∧ (999 : ℚ)/1000 ≤ partiality rp r1 r2) ∧
    (partiality rp (-rp) rp = 1 ∧
      clampLowFlag rp (-rp) = true ∧ clampHighFlag rp rp = true) := by
  refine ⟨partiality_mem_unit rp r1 r2 hrp, ?_, ?_, ?_, ?_⟩
  · intro hlo hhi
    have h := partiality_both_clamped rp r1 r2 hrp hlo hhi
    exact ⟨h, by rw [h]; norm_num⟩
  · exact partiality_both_clamped rp (-rp) rp hrp
      (by simp [clampLowFlag]) (by simp [clampHighFlag])
  · simp [clampLowFlag]
  · simp [clampHighFlag]

/-- Witness for C1 at `r_p = 1`, `r₁ = -2`, `r₂ = 3`. -/
theorem partiality_bounds_and_clamped_witness :
    (0 ≤ partiality 1 (-2) 3 ∧ partiality 1 (-2) 3 ≤ 1) ∧
    (clampLowFlag 1 (-2) = true → clampHighFlag 1 3 = true →
      partiality 1 (-2) 3 = 1 ∧ (999 : ℚ)/1000 ≤ partiality 1 (-2) 3) ∧
    (partiality 1 (-1) 1 = 1 ∧
      clampLowFlag 1 (-1) = true ∧ clampHighFlag 1 1 = true) :=
  partiality_bounds_and_clamped 1 (-2) 3 (by norm_num)

/-! ## partialator.c: scalable / refinable selection

Reflections are modelled with the attributes the two selection passes read and
write.  The fields `inResCutoff` and `peakBadPixel` are the two attributes the
spec's scalability condition mentions; the code of
`select_scalable_reflections` never reads them. -/

structure Refl where
  h : ℤ
  k : ℤ
  l : ℤ
  intensity : ℚ
  partialityVal : ℚ
  redundancy : ℕ
  scalable : Bool
  refinable : Bool
  inResCutoff : Bool
  peakBadPixel : Bool
deriving DecidableEq, Repr

/-- `find_refl` from reflist.c (declared in reflist.h): lookup by Miller
indices; modelled on a list container. -/
def find_refl (list : List Refl) (h k l : ℤ) : Option Refl :=
  list.find? (fun r => decide (r.h = h ∧ r.k = k ∧ r.l = l))

/-- The per-reflection body of `select_scalable_reflections`
(partialator.c): `sc` starts at 1, is zeroed when the partiality is below
0.1, when `|I|` is below 0.1, and — when scaling against a reference set —
when the reflection is absent from the reference list. -/
def selectScalableOne (reference : Option (List Refl)) (r : Refl) : Refl :=
  let sc1 : Bool := true
  let sc2 : Bool := if r.partialityVal < 1/10 then false else sc1
  let sc3 : Bool := if |r.intensity| < 1/10 then false else sc2
  let sc4 : Bool :=
    match reference with
    | none => sc3
    | some ref =>
        if find_refl ref r.h r.k r.l = none then false else sc3
  { r with scalable := sc4 }

/-- `select_scalable_reflections` (partialator.c): sets each reflection's
scalable flag and returns the number of scalable observations. -/
def select_scalable_reflections (list : List Refl)
    (reference : Option (List Refl)) : List Refl × ℕ :=
  let out := list.map (selectScalableOne reference)
  (out, out.countP (fun r => r.scalable))

/-- C4 as claimed: after the pass, the scalable flag is set iff
p ≥ 0.1 ∧ |I| ≥ 0.1 ∧ the indices lie within the resolution cutoff ∧ no
peak-region pixel is in a bad-region mask. -/
def scalableClaimC4 : Prop :=
  ∀ (list : List Refl) (reference : Option (List Refl)),
    ∀ r ∈ (select_scalable_reflections list reference).1,
      (r.scalable = true ↔
        (1/10 ≤ r.partialityVal ∧ 1/10 ≤ |r.intensity| ∧
         r.inResCutoff = true ∧ r.peakBadPixel = false))

/-- Helper: the scalable flag written by `selectScalableOne`. -/
theorem selectScalableOne_scalable (reference : Option (List Refl)) (r : Refl) :
    (selectScalableOne reference r).scalable = true ↔
      (1/10 ≤ r.partialityVal ∧ 1/10 ≤ |r.intensity| ∧
        ∀ ref, reference = some ref → (find_refl ref r.h r.k r.l).isSome) := by
  cases reference with
  | none =>
      simp only [selectScalableOne]
      split_ifs with h1 h2 <;>
        simp_all [not_lt, Option.isSome_iff_ne_none]
  | some ref =>
      simp only [selectScalableOne]
      split_ifs with h0 h1 h2 <;>
        simp_all [not_lt, Option.isSome_iff_ne_none]

/-- Helper: `selectScalableOne` only writes the scalable flag. -/
theorem selectScalableOne_fields (reference : Option (List Refl)) (r : Refl) :
    (selectScalableOne reference r).partialityVal = r.partialityVal ∧
    (selectScalableOne reference r).intensity = r.intensity ∧
    (selectScalableOne reference r).inResCutoff = r.inResCutoff ∧
    (selectScalableOne reference r).peakBadPixel = r.peakBadPixel ∧
    (selectScalableOne reference r).h = r.h ∧
    (selectScalableOne reference r).k = r.k ∧
    (selectScalableOne reference r).l = r.l :=
  ⟨rfl, rfl, rfl, rfl, rfl, rfl, rfl⟩

/-- The concrete reflection used to refute C4: perfect partiality and
intensity, but outside the resolution cutoff. -/
def c4refl : Refl :=
  { h := 1, k := 0, l := 0, intensity := 1, partialityVal := 1,
    redundancy := 0, scalable := false, refinable := false,
    inResCutoff := false, peakBadPixel := false }

/-- C4 counterexample: a reflection with p = 1 and I = 1 whose indices lie
outside the resolution cutoff is still flagged scalable by the code, which
never consults the resolution cutoff or the bad-pixel mask. -/
theorem scalableClaimC4_false : ¬ scalableClaimC4 := by
  intro hcl
  have hmem : selectScalableOne none c4refl ∈
      (select_scalable_reflections [c4refl] none).1 := by
    simp [select_scalable_reflections]
  have h := hcl [c4refl] none _ hmem
  have hsc : (selectScalableOne none c4refl).scalable = true := by
    rw [selectScalableOne_scalable]
    refine ⟨by norm_num [c4refl], by norm_num [c4refl], by simp⟩
  have hres := (h.mp hsc).2.2.1
  have : (selectScalableOne none c4refl).inResCutoff = false := rfl
  rw [this] at hres
  exact Bool.false_ne_true hres

/-- C4 amended: the scalable flag is set iff p ≥ 0.1 ∧ |I| ≥ 0.1 ∧ (when a
reference list was supplied, the reflection's indices are found in it);
the resolution cutoff and bad-pixel mask play no role. -/
theorem select_scalable_reflections_spec (list : List Refl)
    (reference : Option (List Refl)) :
    ∀ r ∈ (select_scalable_reflections list reference).1,
      (r.scalable = true ↔
        (1/10 ≤ r.partialityVal ∧ 1/10 ≤ |r.intensity| ∧
         ∀ ref, reference = some ref → (find_refl ref r.h r.k r.l).isSome)) := by
  intro r hr
  simp only [select_scalable_reflections, List.mem_map] at hr
  obtain ⟨r0, _, rfl⟩ := hr
  have hf := selectScalableOne_fields reference r0
  rw [selectScalableOne_scalable, hf.1, hf.2.1, hf.2.2.2.2.1, hf.2.2.2.2.2.1,
      hf.2.2.2.2.2.2]

/-- Witness for C4's amended theorem at a one-element list, instantiated at
the single reflection of the output. -/
theorem select_scalable_reflections_spec_witness :
    (selectScalableOne none c4refl).scalable = true ↔
      (1/10 ≤ (selectScalableOne none c4refl).partialityVal ∧
       1/10 ≤ |(selectScalableOne none c4refl).intensity| ∧
       ∀ ref, (none : Option (List Refl)) = some ref →
         (find_refl ref (selectScalableOne none c4refl).h
           (selectScalableOne none c4refl).k
           (selectScalableOne none c4refl).l).isSome) :=
  select_scalable_reflections_spec [c4refl] none (selectScalableOne none c4refl)
    (by simp [select_scalable_reflections])

/-- The per-reflection body of `select_reflections_for_refinement`
(partialator.c).  A non-scalable reflection has its refinable flag
cleared; a scalable one with a match `f` in the merged full list is marked
refinable when `f`'s redundancy is at least 2 or a reference was provided —
otherwise (the "few matches" case) the flag is left untouched; a scalable
reflection without a match has the flag cleared. -/
def selectRefinableOne (full : List Refl) (haveReference : Bool) (r : Refl) :
    Refl :=
  if r.scalable = false then { r with refinable := false }
  else
    match find_refl full r.h r.k r.l with
    | some f =>
        if 2 ≤ f.redundancy ∨ haveReference = true then
          { r with refinable := true }
        else r
    | none => { r with refinable := false }

/-- `select_reflections_for_refinement` (partialator.c): the per-image loop
applying `selectRefinableOne` to every reflection of every image. -/
def select_reflections_for_refinement (images : List (List Refl))
    (full : List Refl) (haveReference : Bool) : List (List Refl) :=
  images.map (fun refls => refls.map (selectRefinableOne full haveReference))

/-- C5 as claimed: after the pass a reflection is refinable iff it is
scalable and its full-list match has redundancy ≥ 2 (or a reference was
provided); every non-scalable reflection has the flag cleared. -/
def refinableClaimC5 : Prop :=
  ∀ (full : List Refl) (haveReference : Bool) (r : Refl),
    ((selectRefinableOne full haveReference r).refinable = true ↔
      (r.scalable = true ∧ ∃ f, find_refl full r.h r.k r.l = some f ∧
        (2 ≤ f.redundancy ∨ haveReference = true)))

/-- The reflection used to refute C5: scalable, already flagged refinable by
an earlier pass, whose full-list match now has redundancy 1. -/
def c5refl : Refl :=
  { h := 1, k := 0, l := 0, intensity := 1, partialityVal := 1,
    redundancy := 0, scalable := true, refinable := true,
    inResCutoff := true, peakBadPixel := false }

/-- The merged-list entry matching `c5refl`, with redundancy 1. -/
def c5full : Refl :=
  { h := 1, k := 0, l := 0, intensity := 1, partialityVal := 1,
    redundancy := 1, scalable := false, refinable := false,
    inResCutoff := true, peakBadPixel := false }

/-- C5 counterexample: in the "few matches" case (scalable, match found,
redundancy < 2, no reference) the code leaves a previously set refinable
flag in place, so the reflection stays refinable although the claimed
condition is false. -/
theorem refinableClaimC5_false : ¬ refinableClaimC5 := by
  intro hcl
  have h := hcl [c5full] false c5refl
  have hsel : selectRefinableOne [c5full] false c5refl = c5refl := by
    unfold selectRefinableOne
    norm_num [c5refl, c5full, find_refl]
  rw [hsel] at h
  have hr : c5refl.refinable = true := rfl
  obtain ⟨f, hf, hred⟩ := (h.mp hr).2
  have hfind : find_refl [c5full] c5refl.h c5refl.k c5refl.l = some c5full := by
    norm_num [c5refl, c5full, find_refl]
  rw [hfind] at hf
  cases hf
  rcases hred with hred | hred
  · exact absurd hred (by norm_num [c5full])
  · exact Bool.false_ne_true hred

/-- C5 amended: after the pass a reflection is refinable iff it is scalable
and has a full-list match, and either the match's redundancy is ≥ 2 or a
reference was provided or the reflection was already flagged refinable (the
"few matches" case leaves the flag unchanged); non-scalable reflections and
scalable reflections without a match have the flag cleared. -/
theorem selectRefinableOne_refinable (full : List Refl) (haveReference : Bool)
    (r : Refl) :
    ((selectRefinableOne full haveReference r).refinable = true ↔
      (r.scalable = true ∧ ∃ f, find_refl full r.h r.k r.l = some f ∧
        ((2 ≤ f.redundancy ∨ haveReference = true) ∨ r.refinable = true))) ∧
    (r.scalable = false →
      (selectRefinableOne full haveReference r).refinable = false) := by
  have heq : (selectRefinableOne full haveReference r).refinable =
      (if r.scalable = false then false
       else match find_refl full r.h r.k r.l with
         | some f =>
             if 2 ≤ f.redundancy ∨ haveReference = true then true
             else r.refinable
         | none => false) := by
    unfold selectRefinableOne
    split_ifs with h
    · rfl
    · cases find_refl full r.h r.k r.l with
      | some f =>
          by_cases hc : 2 ≤ f.redundancy ∨ haveReference = true
          · simp [hc]
          · simp [hc]
      | none => rfl
  rw [heq]
  cases hs : r.scalable with
  | false => simp
  | true =>
      cases hfind : find_refl full r.h r.k r.l with
      | none => simp
      | some f =>
          by_cases hcond : 2 ≤ f.redundancy ∨ haveReference = true
          · simp [hcond]
          · simp only [Bool.true_eq_false, if_false, hcond, true_and,
              Option.some.injEq]
            refine ⟨⟨fun hr => ⟨f, rfl, Or.inr hr⟩, ?_⟩,
              fun h => absurd h (by simp)⟩
            rintro ⟨f', hf', h | h⟩
            · cases hf'
              exact absurd h hcond
            · exact h

/-- Witness for C5's amended theorem at concrete inputs. -/
theorem selectRefinableOne_refinable_witness :
    ((selectRefinableOne [c5full] false c5refl).refinable = true ↔
      (c5refl.scalable = true ∧
        ∃ f, find_refl [c5full] c5refl.h c5refl.k c5refl.l = some f ∧
          ((2 ≤ f.redundancy ∨ false = true) ∨ c5refl.refinable = true))) ∧
    (c5refl.scalable = false →
      (selectRefinableOne [c5full] false c5refl).refinable = false) :=
  selectRefinableOne_refinable [c5full] false c5refl

/-! ## cell.c: unit-cell representation conversions

`double` arithmetic is modelled over `ℝ`; the trigonometric and square-root
calls of the source map to `Real.cos`, `Real.sin`, `Real.sqrt`,
`Real.arccos`. -/

/-- `struct rvec`: a lab-frame vector. -/
structure Vec3 where
  x : ℝ
  y : ℝ
  z : ℝ

/-- The six crystallographic parameters of `struct _unitcell`. -/
structure CellParams where
  a : ℝ
  b : ℝ
  c : ℝ
  alpha : ℝ
  beta : ℝ
  gamma : ℝ

/-- Three axis vectors (either the Cartesian direct axes `ax..cz` or the
reciprocal axes `axs..czs` of `struct _unitcell`). -/
structure CellAxes where
  a : Vec3
  b : Vec3
  c : Vec3

/-- Modelled from the spec: `modulus` from utils.c (not in the snapshot),
the Euclidean length used by `cell_get_parameters`. -/
noncomputable def modulus (v : Vec3) : ℝ := Real.sqrt (v.x^2 + v.y^2 + v.z^2)

/-- The dot product of two axis vectors. -/
noncomputable def dot3 (u v : Vec3) : ℝ := u.x*v.x + u.y*v.y + u.z*v.z

/-- Modelled from the spec: `angle_between` from utils.c (not in the
snapshot), the angle between two vectors used by `cell_get_parameters`. -/
noncomputable def angle_between (u v : Vec3) : ℝ :=
  Real.arccos (dot3 u v / (modulus u * modulus v))

/-- The `tmp` quantity computed by `cell_crystallographic_to_cartesian`:
`cos²α + cos²β + cos²γ - 2·cosα·cosβ·cosγ`. -/
noncomputable def cosTmp (p : CellParams) : ℝ :=
  Real.cos p.alpha * Real.cos p.alpha
  + Real.cos p.beta * Real.cos p.beta
  + Real.cos p.gamma * Real.cos p.gamma
  - 2 * Real.cos p.alpha * Real.cos p.beta * Real.cos p.gamma

/-- `cell_crystallographic_to_cartesian` (cell.c): `+a` along `+x`, `b` in
the `xy` plane, `c` placed using the reciprocal angle `α*` and the cell
volume. -/
noncomputable def cell_crystallographic_to_cartesian (p : CellParams) :
    CellAxes :=
  let tmp := cosTmp p
  let V := p.a * p.b * p.c * Real.sqrt (1 - tmp)
  let cosalphastar := (Real.cos p.beta * Real.cos p.gamma - Real.cos p.alpha)
    / (Real.sin p.beta * Real.sin p.gamma)
  let cstar := (p.a * p.b * Real.sin p.gamma) / V
  { a := ⟨p.a, 0, 0⟩
    b := ⟨p.b * Real.cos p.gamma, p.b * Real.sin p.gamma, 0⟩
    c := ⟨p.c * Real.cos p.beta, -p.c * Real.sin p.beta * cosalphastar,
          1 / cstar⟩ }

/-- The `CELL_REP_CART` branch of `cell_get_parameters` (cell.c):
lengths are moduli, angles are pairwise `angle_between`. -/
noncomputable def cartesian_to_crystallographic (M : CellAxes) : CellParams :=
  { a := modulus M.a
    b := modulus M.b
    c := modulus M.c
    alpha := angle_between M.b M.c
    beta := angle_between M.a M.c
    gamma := angle_between M.a M.b }

/-- Determinant of the axis matrix `((ax,bx,cx),(ay,by,cy),(az,bz,cz))`. -/
noncomputable def det3 (M : CellAxes) : ℝ :=
  M.a.x * (M.b.y * M.c.z - M.c.y * M.b.z)
  - M.b.x * (M.a.y * M.c.z - M.c.y * M.a.z)
  + M.c.x * (M.a.y * M.b.z - M.b.y * M.a.z)

/-- The inverse-transpose of the axis matrix, written out as the adjugate
formula: this is the matrix that `cell_invert` (cell.c) computes through
GSL's LU decomposition, inversion and transpose when the input is
nonsingular. -/
noncomputable def invertAxes (M : CellAxes) : CellAxes :=
  { a := ⟨(M.b.y*M.c.z - M.c.y*M.b.z)/det3 M,
          -(M.b.x*M.c.z - M.c.x*M.b.z)/det3 M,
          (M.b.x*M.c.y - M.c.x*M.b.y)/det3 M⟩
    b := ⟨-(M.a.y*M.c.z - M.c.y*M.a.z)/det3 M,
          (M.a.x*M.c.z - M.c.x*M.a.z)/det3 M,
          -(M.a.x*M.c.y - M.c.x*M.a.y)/det3 M⟩
    c := ⟨(M.a.y*M.b.z - M.b.y*M.a.z)/det3 M,
          -(M.a.x*M.b.z - M.b.x*M.a.z)/det3 M,
          (M.a.x*M.b.y - M.b.x*M.a.y)/det3 M⟩ }

open scoped Classical in
/-- `cell_invert` (cell.c).  The GSL LU routines it calls are an external
library, not in the snapshot; their failure behaviour is modelled from the
spec ("guard against singular matrices"): inversion fails exactly when the
axis matrix is singular, and on failure `cell_invert` returns 1 without
writing its outputs — modelled as `none`. -/
noncomputable def cell_invert (M : CellAxes) : Option CellAxes :=
  if det3 M = 0 then none else some (invertAxes M)

/-- `CellRepresentation` (cell.c). -/
inductive CellRep
  | cryst
  | cart
  | recip
deriving DecidableEq

/-- `struct _unitcell` (cell.c): one canonical representation plus storage
for all three forms. -/
structure UnitCell where
  rep : CellRep
  params : CellParams
  cartAxes : CellAxes
  recipAxes : CellAxes

/-- All-zero axes, standing for the uninitialised fields of a fresh cell. -/
def zeroAxes : CellAxes := ⟨⟨0,0,0⟩, ⟨0,0,0⟩, ⟨0,0,0⟩⟩

/-- `cell_new` defaults: a = b = c = 1, α = β = γ = π/2. -/
noncomputable def defaultParams : CellParams := ⟨1, 1, 1, Real.pi/2, Real.pi/2, Real.pi/2⟩

/-- `cell_new` followed by `cell_set_parameters`. -/
noncomputable def mkCryst (p : CellParams) : UnitCell :=
  ⟨.cryst, p, zeroAxes, zeroAxes⟩

/-- `cell_new` followed by `cell_set_cartesian`. -/
noncomputable def mkCart (M : CellAxes) : UnitCell :=
  ⟨.cart, defaultParams, M, zeroAxes⟩

/-- `cell_new` followed by `cell_set_reciprocal` (as in
`cell_new_from_axes`). -/
noncomputable def mkRecip (M : CellAxes) : UnitCell :=
  ⟨.recip, defaultParams, zeroAxes, M⟩

/-- `cell_get_parameters` (cell.c).  In the `CELL_REP_RECIP` branch the C
ignores `cell_invert`'s status and would read indeterminate values when the
inversion fails; that case is modelled as `none`. -/
noncomputable def cell_get_parameters (cell : UnitCell) : Option CellParams :=
  match cell.rep with
  | .cryst => some cell.params
  | .cart => some (cartesian_to_crystallographic cell.cartAxes)
  | .recip => (cell_invert cell.recipAxes).map cartesian_to_crystallographic

/-- `cell_get_cartesian` (cell.c). -/
noncomputable def cell_get_cartesian (cell : UnitCell) : Option CellAxes :=
  match cell.rep with
  | .cryst => some (cell_crystallographic_to_cartesian cell.params)
  | .cart => some cell.cartAxes
  | .recip => cell_invert cell.recipAxes

/-- `cell_get_reciprocal` (cell.c): returns the C status code together with
the written axes.  In the `CELL_REP_CRYST` branch the status of
`cell_invert` is propagated; in the `CELL_REP_CART` branch the source calls
`cell_invert`, discards its status and returns 0 unconditionally. -/
noncomputable def cell_get_reciprocal (cell : UnitCell) : ℤ × Option CellAxes :=
  match cell.rep with
  | .cryst =>
      match cell_invert (cell_crystallographic_to_cartesian cell.params) with
      | some r => (0, some r)
      | none => (1, none)
  | .cart =>
      match cell_invert cell.cartAxes with
      | some r => (0, some r)
      | none => (0, none)
  | .recip => (0, some cell.recipAxes)

/-- A round trip of a cell through representation `r`: read the cell in
representation `r`, build a fresh cell stored in that representation. -/
noncomputable def roundTripCell (cell : UnitCell) (r : CellRep) :
    Option UnitCell :=
  match r with
  | .cryst => (cell_get_parameters cell).map mkCryst
  | .cart => (cell_get_cartesian cell).map mkCart
  | .recip => ((cell_get_reciprocal cell).2).map mkRecip

/-- Crystallographic parameters describing an actual lattice: positive
lengths, angles strictly inside `(0, π)`, and positive cell volume
(`tmp < 1`). -/
def ValidParams (p : CellParams) : Prop :=
  0 < p.a ∧ 0 < p.b ∧ 0 < p.c ∧
  0 < p.alpha ∧ p.alpha < Real.pi ∧
  0 < p.beta ∧ p.beta < Real.pi ∧
  0 < p.gamma ∧ p.gamma < Real.pi ∧
  cosTmp p < 1

/-- A valid stored cell: valid parameters in the crystallographic
representation, nonsingular axes in the other two. -/
def ValidCell (cell : UnitCell) : Prop :=
  match cell.rep with
  | .cryst => ValidParams cell.params
  | .cart => det3 cell.cartAxes ≠ 0
  | .recip => det3 cell.recipAxes ≠ 0

/-- The six parameters agree to within `10⁻⁹` relative error. -/
def paramsClose (p q : CellParams) : Prop :=
  |q.a - p.a| ≤ 1/10^9 * |p.a| ∧ |q.b - p.b| ≤ 1/10^9 * |p.b| ∧
  |q.c - p.c| ≤ 1/10^9 * |p.c| ∧ |q.alpha - p.alpha| ≤ 1/10^9 * |p.alpha| ∧
  |q.beta - p.beta| ≤ 1/10^9 * |p.beta| ∧
  |q.gamma - p.gamma| ≤ 1/10^9 * |p.gamma|

/-- Helper: the determinant of the inverse-transpose is the inverse of the
determinant. -/
theorem det3_invertAxes (M : CellAxes) (h : det3 M ≠ 0) :
    det3 (invertAxes M) = (det3 M)⁻¹ := by
  obtain ⟨⟨ax, ay, az⟩, ⟨bx, b_y, bz⟩, ⟨cx, cy, cz⟩⟩ := M
  simp only [det3, invertAxes] at *
  field_simp
  ring

/-- Helper: reading the parameters back from the Cartesian axes returns the
original crystallographic parameters exactly. -/
theorem cartesian_round_trip (p : CellParams) (hv : ValidParams p) :
    cartesian_to_crystallographic (cell_crystallographic_to_cartesian p) = p := by
  obtain ⟨ha, hb, hc, ha0, hapi, hb0, hbpi, hg0, hgpi, htmp⟩ := hv
  obtain ⟨pa, pb, pc, pal, pbe, pga⟩ := p
  simp only at ha hb hc ha0 hapi hb0 hbpi hg0 hgpi htmp
  have hsb : 0 < Real.sin pbe := Real.sin_pos_of_pos_of_lt_pi hb0 hbpi
  have hsg : 0 < Real.sin pga := Real.sin_pos_of_pos_of_lt_pi hg0 hgpi
  have h1mt : 0 < 1 - cosTmp ⟨pa, pb, pc, pal, pbe, pga⟩ := by linarith
  set P : CellParams := ⟨pa, pb, pc, pal, pbe, pga⟩ with hP
  set ca := Real.cos pal with hca
  set cb := Real.cos pbe with hcb
  set cg := Real.cos pga with hcg
  set sb := Real.sin pbe with hsbd
  set sg := Real.sin pga with hsgd
  set u := Real.sqrt (1 - cosTmp P) with hu
  have hu2 : u^2 = 1 - cosTmp P := Real.sq_sqrt h1mt.le
  have hupos : 0 < u := Real.sqrt_pos.mpr h1mt
  have hs2b : sb^2 = 1 - cb^2 := Real.sin_sq pbe
  have hs2g : sg^2 = 1 - cg^2 := Real.sin_sq pga
  have hkey : (cb*cg - ca)^2 + u^2 = sg^2 - cb^2*sg^2 := by
    rw [hu2]
    simp only [cosTmp, hP]
    simp only [← hca, ← hcb, ← hcg]
    linear_combination (cb^2 - 1) * hs2g
  -- simplified forms of the y and z components of the c axis
  have hcz : (1 / ((pa * pb * sg) / (pa * pb * pc * Real.sqrt (1 - cosTmp P))))
      = pc * u / sg := by
    rw [one_div_div, ← hu]
    field_simp
    ring
  have hcy : -pc * sb * ((cb * cg - ca) / (sb * sg)) = -(pc * (cb * cg - ca) / sg) := by
    field_simp
    ring
  -- moduli of the three axes
  have hmoda : modulus ⟨pa, 0, 0⟩ = pa := by
    simp only [modulus]
    rw [show pa^2 + (0:ℝ)^2 + (0:ℝ)^2 = pa^2 by norm_num]
    exact Real.sqrt_sq ha.le
  have hmodb : modulus ⟨pb * cg, pb * sg, 0⟩ = pb := by
    simp only [modulus]
    rw [show (pb*cg)^2 + (pb*sg)^2 + (0:ℝ)^2 = pb^2 * (sg^2 + cg^2) by ring, hs2g]
    rw [show pb^2 * (1 - cg^2 + cg^2) = pb^2 by ring]
    exact Real.sqrt_sq hb.le
  have hmodc : modulus ⟨pc * cb, -(pc * (cb*cg - ca) / sg), pc * u / sg⟩ = pc := by
    simp only [modulus]
    have hinner : (pc*cb)^2 + (-(pc * (cb*cg - ca) / sg))^2 + (pc * u / sg)^2
        = pc^2 := by
      field_simp
      linear_combination (pc^2) * hkey
    rw [hinner]
    exact Real.sqrt_sq hc.le
  -- dot products between the axes
  have hdbc : dot3 ⟨pb * cg, pb * sg, 0⟩ ⟨pc * cb, -(pc * (cb*cg - ca) / sg), pc * u / sg⟩
      = (pb * pc) * ca := by
    simp only [dot3]
    field_simp
    ring
  have hdac : dot3 ⟨pa, 0, 0⟩ ⟨pc * cb, -(pc * (cb*cg - ca) / sg), pc * u / sg⟩
      = (pa * pc) * cb := by
    simp only [dot3]
    ring
  have hdab : dot3 ⟨pa, 0, 0⟩ ⟨pb * cg, pb * sg, 0⟩ = (pa * pb) * cg := by
    simp only [dot3]
    ring
  -- the three read-back angles
  have hangbc : angle_between ⟨pb * cg, pb * sg, 0⟩
      ⟨pc * cb, -(pc * (cb*cg - ca) / sg), pc * u / sg⟩ = pal := by
    simp only [angle_between]
    rw [hdbc, hmodb, hmodc, mul_div_cancel_left₀ _ (by positivity : pb * pc ≠ 0)]
    rw [hca]
    exact Real.arccos_cos ha0.le hapi.le
  have hangac : angle_between ⟨pa, 0, 0⟩
      ⟨pc * cb, -(pc * (cb*cg - ca) / sg), pc * u / sg⟩ = pbe := by
    simp only [angle_between]
    rw [hdac, hmoda, hmodc, mul_div_cancel_left₀ _ (by positivity : pa * pc ≠ 0)]
    rw [hcb]
    exact Real.arccos_cos hb0.le hbpi.le
  have hangab : angle_between ⟨pa, 0, 0⟩ ⟨pb * cg, pb * sg, 0⟩ = pga := by
    simp only [angle_between]
    rw [hdab, hmoda, hmodb, mul_div_cancel_left₀ _ (by positivity : pa * pb ≠ 0)]
    rw [hcg]
    exact Real.arccos_cos hg0.le hgpi.le
  -- assemble
  show cartesian_to_crystallographic (cell_crystallographic_to_cartesian P) = P
  simp only [cell_crystallographic_to_cartesian, cartesian_to_crystallographic, hP]
  simp only [← hca, ← hcb, ← hcg, ← hsbd, ← hsgd, ← hu]
  rw [hcy, hcz]
  simp only [CellParams.mk.injEq]
  exact ⟨hmoda, hmodb, hmodc, hangbc, hangac, hangab⟩

/-- Helper: the determinant of the constructed Cartesian axes is the cell
volume. -/
theorem det3_crystToCart (p : CellParams) (hv : ValidParams p) :
    det3 (cell_crystallographic_to_cartesian p)
      = p.a * p.b * p.c * Real.sqrt (1 - cosTmp p) := by
  obtain ⟨ha, hb, hc, ha0, hapi, hb0, hbpi, hg0, hgpi, htmp⟩ := hv
  have hsg : 0 < Real.sin p.gamma := Real.sin_pos_of_pos_of_lt_pi hg0 hgpi
  simp only [det3, cell_crystallographic_to_cartesian]
  rw [one_div_div]
  field_simp
  ring

theorem det3_crystToCart_ne (p : CellParams) (hv : ValidParams p) :
    det3 (cell_crystallographic_to_cartesian p) ≠ 0 := by
  rw [det3_crystToCart p hv]
  obtain ⟨ha, hb, hc, ha0, hapi, hb0, hbpi, hg0, hgpi, htmp⟩ := hv
  have : 0 < Real.sqrt (1 - cosTmp p) := Real.sqrt_pos.mpr (by linarith)
  positivity

/-- Helper: inverting twice returns the original axes. -/
theorem invertAxes_invertAxes (M : CellAxes) (h : det3 M ≠ 0) :
    invertAxes (invertAxes M) = M := by
  have hdi := det3_invertAxes M h
  obtain ⟨⟨ax, ay, az⟩, ⟨bx, b_y, bz⟩, ⟨cx, cy, cz⟩⟩ := M
  simp only [det3, invertAxes] at *
  rw [hdi]
  simp only [CellAxes.mk.injEq, Vec3.mk.injEq]
  refine ⟨⟨?_, ?_, ?_⟩, ⟨?_, ?_, ?_⟩, ⟨?_, ?_, ?_⟩⟩ <;>
    (field_simp; ring)

/-- Helper: on nonsingular axes `cell_invert` succeeds with the
inverse-transpose. -/
theorem cell_invert_some (M : CellAxes) (h : det3 M ≠ 0) :
    cell_invert M = some (invertAxes M) := by
  simp [cell_invert, h]

/-- Helper: the inverse-transpose of nonsingular axes is nonsingular. -/
theorem det3_invertAxes_ne (M : CellAxes) (h : det3 M ≠ 0) :
    det3 (invertAxes M) ≠ 0 := by
  rw [det3_invertAxes M h]
  exact inv_ne_zero h

/-- Helper: parameters are within 10⁻⁹ relative error of themselves. -/
theorem paramsClose_refl (p : CellParams) : paramsClose p p := by
  unfold paramsClose
  refine ⟨?_, ?_, ?_, ?_, ?_, ?_⟩ <;> (rw [sub_self, abs_zero]; positivity)

/-- C2: for every valid UnitCell, whichever representation it is stored in,
the six parameters read back after a round trip through any representation
are the original ones exactly — in particular within 10⁻⁹ relative error. -/
theorem cell_roundtrip_preserves_parameters (cell : UnitCell)
    (hv : ValidCell cell) (r : CellRep) :
    ∃ cell' p p', roundTripCell cell r = some cell' ∧
      cell_get_parameters cell = some p ∧
      cell_get_parameters cell' = some p' ∧
      p' = p ∧ paramsClose p p' := by
  obtain ⟨rep, params, cartM, recipM⟩ := cell
  cases rep with
  | cryst =>
      have hval : ValidParams params := hv
      have hdet := det3_crystToCart_ne params hval
      cases r with
      | cryst =>
          refine ⟨mkCryst params, params, params, rfl, rfl, rfl, rfl,
            paramsClose_refl params⟩
      | cart =>
          refine ⟨mkCart (cell_crystallographic_to_cartesian params), params,
            params, rfl, rfl, ?_, rfl, paramsClose_refl params⟩
          show some (cartesian_to_crystallographic
            (cell_crystallographic_to_cartesian params)) = some params
          rw [cartesian_round_trip params hval]
      | recip =>
          refine ⟨mkRecip (invertAxes (cell_crystallographic_to_cartesian
            params)), params, params, ?_, rfl, ?_, rfl,
            paramsClose_refl params⟩
          · show (((match cell_invert (cell_crystallographic_to_cartesian
                params) with
              | some r => ((0 : ℤ), some r)
              | none => (1, none)).2).map mkRecip) = _
            rw [cell_invert_some _ hdet]
            rfl
          · show (cell_invert (invertAxes (cell_crystallographic_to_cartesian
              params))).map cartesian_to_crystallographic = some params
            rw [cell_invert_some _ (det3_invertAxes_ne _ hdet),
                Option.map_some', invertAxes_invertAxes _ hdet,
                cartesian_round_trip params hval]
  | cart =>
      have hdet : det3 cartM ≠ 0 := hv
      cases r with
      | cryst =>
          exact ⟨mkCryst (cartesian_to_crystallographic cartM),
            cartesian_to_crystallographic cartM,
            cartesian_to_crystallographic cartM, rfl, rfl, rfl, rfl,
            paramsClose_refl _⟩
      | cart =>
          exact ⟨mkCart cartM, cartesian_to_crystallographic cartM,
            cartesian_to_crystallographic cartM, rfl, rfl, rfl, rfl,
            paramsClose_refl _⟩
      | recip =>
          refine ⟨mkRecip (invertAxes cartM),
            cartesian_to_crystallographic cartM,
            cartesian_to_crystallographic cartM, ?_, rfl, ?_, rfl,
            paramsClose_refl _⟩
          · show (((match cell_invert cartM with
              | some r => ((0 : ℤ), some r)
              | none => (0, none)).2).map mkRecip) = _
            rw [cell_invert_some _ hdet]
            rfl
          · show (cell_invert (invertAxes cartM)).map
              cartesian_to_crystallographic = _
            rw [cell_invert_some _ (det3_invertAxes_ne _ hdet),
                Option.map_some', invertAxes_invertAxes _ hdet]
  | recip =>
      have hdet : det3 recipM ≠ 0 := hv
      have hp : cell_get_parameters ⟨.recip, params, cartM, recipM⟩
          = some (cartesian_to_crystallographic (invertAxes recipM)) := by
        show (cell_invert recipM).map cartesian_to_crystallographic = _
        rw [cell_invert_some _ hdet, Option.map_some']
      cases r with
      | cryst =>
          refine ⟨mkCryst (cartesian_to_crystallographic (invertAxes recipM)),
            cartesian_to_crystallographic (invertAxes recipM),
            cartesian_to_crystallographic (invertAxes recipM), ?_, hp, rfl,
            rfl, paramsClose_refl _⟩
          show (cell_get_parameters ⟨.recip, params, cartM, recipM⟩).map
            mkCryst = _
          rw [hp]
          rfl
      | cart =>
          refine ⟨mkCart (invertAxes recipM),
            cartesian_to_crystallographic (invertAxes recipM),
            cartesian_to_crystallographic (invertAxes recipM), ?_, hp, rfl,
            rfl, paramsClose_refl _⟩
          show (cell_invert recipM).map mkCart = _
          rw [cell_invert_some _ hdet]
          rfl
      | recip =>
          refine ⟨mkRecip recipM,
            cartesian_to_crystallographic (invertAxes recipM),
            cartesian_to_crystallographic (invertAxes recipM), rfl, hp, ?_,
            rfl, paramsClose_refl _⟩
          show (cell_invert recipM).map cartesian_to_crystallographic = _
          rw [cell_invert_some _ hdet, Option.map_some']

/-- Witness for C2: a cubic cell stored crystallographically, round-tripped
through the Cartesian representation. -/
theorem cell_roundtrip_preserves_parameters_witness :
    ∃ cell' p p',
      roundTripCell (mkCryst ⟨1, 1, 1, Real.pi/2, Real.pi/2, Real.pi/2⟩)
        CellRep.cart = some cell' ∧
      cell_get_parameters (mkCryst ⟨1, 1, 1, Real.pi/2, Real.pi/2, Real.pi/2⟩)
        = some p ∧
      cell_get_parameters cell' = some p' ∧ p' = p ∧ paramsClose p p' := by
  refine cell_roundtrip_preserves_parameters _ ?_ CellRep.cart
  show ValidParams ⟨1, 1, 1, Real.pi/2, Real.pi/2, Real.pi/2⟩
  have hpi := Real.pi_pos
  refine ⟨one_pos, one_pos, one_pos, by positivity, by linarith,
    by positivity, by linarith, by positivity, by linarith, ?_⟩
  show cosTmp ⟨1, 1, 1, Real.pi/2, Real.pi/2, Real.pi/2⟩ < 1
  simp [cosTmp, Real.cos_pi_div_two]

/-- C6 (status reporting of the reciprocal conversion): on the singular
all-zero Cartesian axes the modelled LU inversion fails, yet
`cell_get_reciprocal` on a Cartesian-representation cell returns status 0;
in the crystallographic branch a failed inversion is propagated as status
1. -/
theorem cell_get_reciprocal_ignores_cart_failure :
    det3 zeroAxes = 0 ∧
    cell_invert zeroAxes = none ∧
    (cell_get_reciprocal (mkCart zeroAxes)).1 = 0 ∧
    (cell_get_reciprocal (mkCart zeroAxes)).2 = none ∧
    (∀ p : CellParams, det3 (cell_crystallographic_to_cartesian p) = 0 →
      (cell_get_reciprocal (mkCryst p)).1 = 1) := by
  have hdet : det3 zeroAxes = 0 := by simp [det3, zeroAxes]
  have hinv : cell_invert zeroAxes = none := by simp [cell_invert, hdet]
  refine ⟨hdet, hinv, ?_, ?_, ?_⟩
  · simp only [cell_get_reciprocal, mkCart]
    rw [hinv]
  · simp only [cell_get_reciprocal, mkCart]
    rw [hinv]
  · intro p hp
    simp only [cell_get_reciprocal, mkCryst]
    rw [show cell_invert (cell_crystallographic_to_cartesian p) = none by
      simp [cell_invert, hp]]

/-- Witness for C6's theorem: the degenerate cell with a = 0 makes the
crystallographic-to-Cartesian axes singular, and the crystallographic
branch of `cell_get_reciprocal` does report status 1 there. -/
theorem cell_get_reciprocal_ignores_cart_failure_witness :
    det3 (cell_crystallographic_to_cartesian
      ⟨0, 1, 1, Real.pi/2, Real.pi/2, Real.pi/2⟩) = 0 ∧
    (cell_get_reciprocal (mkCryst
      ⟨0, 1, 1, Real.pi/2, Real.pi/2, Real.pi/2⟩)).1 = 1 := by
  have h0 : det3 (cell_crystallographic_to_cartesian
      ⟨0, 1, 1, Real.pi/2, Real.pi/2, Real.pi/2⟩) = 0 := by
    simp [det3, cell_crystallographic_to_cartesian]
  exact ⟨h0, cell_get_reciprocal_ignores_cart_failure.2.2.2.2 _ h0⟩

/-- The trivial cubic cell of spec scenario 1: 10 nm edges, right angles. -/
noncomputable def trivialCellParams : CellParams :=
  ⟨1/10^8, 1/10^8, 1/10^8, Real.pi/2, Real.pi/2, Real.pi/2⟩

/-- C9: converting the trivial 10 nm cubic cell to Cartesian axes gives
`a = (10⁻⁸,0,0)`, `b = (0,10⁻⁸,0)`, `c = (0,0,10⁻⁸)` with positive `c_z`,
and the inverse-transpose reciprocal axes all have modulus 10⁸ m⁻¹. -/
theorem trivial_cell_cartesian_reciprocal :
    cell_crystallographic_to_cartesian trivialCellParams
      = ⟨⟨1/10^8, 0, 0⟩, ⟨0, 1/10^8, 0⟩, ⟨0, 0, 1/10^8⟩⟩ ∧
    0 < (cell_crystallographic_to_cartesian trivialCellParams).c.z ∧
    modulus (invertAxes (cell_crystallographic_to_cartesian
      trivialCellParams)).a = 10^8 ∧
    modulus (invertAxes (cell_crystallographic_to_cartesian
      trivialCellParams)).b = 10^8 ∧
    modulus (invertAxes (cell_crystallographic_to_cartesian
      trivialCellParams)).c = 10^8 := by
  have hM : cell_crystallographic_to_cartesian trivialCellParams
      = ⟨⟨1/10^8, 0, 0⟩, ⟨0, 1/10^8, 0⟩, ⟨0, 0, 1/10^8⟩⟩ := by
    simp only [cell_crystallographic_to_cartesian, trivialCellParams, cosTmp,
      Real.cos_pi_div_two, Real.sin_pi_div_two]
    norm_num [Real.sqrt_one]
  have hinv : invertAxes (cell_crystallographic_to_cartesian
      trivialCellParams) = ⟨⟨10^8, 0, 0⟩, ⟨0, 10^8, 0⟩, ⟨0, 0, 10^8⟩⟩ := by
    rw [hM]
    simp only [invertAxes, det3]
    norm_num
  refine ⟨hM, ?_, ?_, ?_, ?_⟩
  · rw [hM]
    norm_num
  · rw [hinv]
    simp only [modulus]
    rw [show ((10:ℝ)^8)^2 + (0:ℝ)^2 + (0:ℝ)^2 = ((10:ℝ)^8)^2 by ring]
    exact Real.sqrt_sq (by positivity)
  · rw [hinv]
    simp only [modulus]
    rw [show (0:ℝ)^2 + ((10:ℝ)^8)^2 + (0:ℝ)^2 = ((10:ℝ)^8)^2 by ring]
    exact Real.sqrt_sq (by positivity)
  · rw [hinv]
    simp only [modulus]
    rw [show (0:ℝ)^2 + (0:ℝ)^2 + ((10:ℝ)^8)^2 = ((10:ℝ)^8)^2 by ring]
    exact Real.sqrt_sq (by positivity)


/-! ## thread-pool.c: the range-mode worker pool -/

inductive TaskStatus
  | ready
  | running
  | finished
deriving DecidableEq, Repr

inductive WorkerState
  | idle
  | busy (task : ℕ)
  | exited
deriving DecidableEq, Repr

structure PoolState where
  status : List TaskStatus
  nDone : ℕ
  workers : List WorkerState
  invoked : List ℕ
deriving DecidableEq, Repr

def initState (T W : ℕ) : PoolState :=
  { status := List.replicate T .ready
    nDone := 0
    workers := List.replicate W .idle
    invoked := List.replicate T 0 }

inductive PoolStep : PoolState → PoolState → Prop
  | claim (s : PoolState) (w i : ℕ)
      (hw : s.workers[w]? = some WorkerState.idle)
      (hi : s.status[i]? = some TaskStatus.ready)
      (hmin : ∀ j, j < i → ¬ s.status[j]? = some TaskStatus.ready) :
      PoolStep s
        { status := s.status.set i .running
          nDone := s.nDone
          workers := s.workers.set w (.busy i)
          invoked := s.invoked.set i (s.invoked.getD i 0 + 1) }
  | finish (s : PoolState) (w i : ℕ)
      (hw : s.workers[w]? = some (WorkerState.busy i)) :
      PoolStep s
        { status := s.status.set i .finished
          nDone := s.nDone + 1
          workers := s.workers.set w .idle
          invoked := s.invoked }
  | exit (s : PoolState) (w : ℕ)
      (hw : s.workers[w]? = some WorkerState.idle)
      (hnr : ∀ (j : ℕ), ¬ s.status[j]? = some TaskStatus.ready) :
      PoolStep s
        { status := s.status
          nDone := s.nDone
          workers := s.workers.set w .exited
          invoked := s.invoked }

def PoolReachable (T W : ℕ) (s : PoolState) : Prop :=
  Relation.ReflTransGen PoolStep (initState T W) s

def AllExited (s : PoolState) : Prop :=
  ∀ x ∈ s.workers, x = WorkerState.exited

/-- The inductive invariant of the range-mode pool. -/
structure PoolInv (T W : ℕ) (s : PoolState) : Prop where
  len_status : s.status.length = T
  len_workers : s.workers.length = W
  len_invoked : s.invoked.length = T
  invoked_ready : ∀ (i : ℕ), s.status[i]? = some TaskStatus.ready →
    s.invoked[i]? = some 0
  invoked_other : ∀ (i : ℕ) (st : TaskStatus), s.status[i]? = some st →
    st ≠ .ready → s.invoked[i]? = some 1
  ndone_count : s.nDone = s.status.countP (fun st => st = TaskStatus.finished)
  busy_running : ∀ (w i : ℕ), s.workers[w]? = some (WorkerState.busy i) →
    s.status[i]? = some TaskStatus.running
  busy_unique : ∀ (w1 w2 i : ℕ), s.workers[w1]? = some (WorkerState.busy i) →
    s.workers[w2]? = some (WorkerState.busy i) → w1 = w2
  running_busy : ∀ (i : ℕ), s.status[i]? = some TaskStatus.running →
    ∃ (w : ℕ), s.workers[w]? = some (WorkerState.busy i)
  exited_noready : (∃ (w : ℕ), s.workers[w]? = some WorkerState.exited) →
    ∀ (j : ℕ), ¬ s.status[j]? = some TaskStatus.ready

theorem countP_replicate {α : Type} (p : α → Bool) (n : ℕ) (a : α) :
    (List.replicate n a).countP p = if p a then n else 0 := by
  induction n with
  | zero => simp
  | succ m ih =>
      rw [List.replicate_succ, List.countP_cons, ih]
      split_ifs <;> simp

theorem countP_set_swap {α : Type} (l : List α) (i : ℕ) (a b : α)
    (p : α → Bool) (h : l[i]? = some b) :
    (l.set i a).countP p + (if p b then 1 else 0)
      = l.countP p + (if p a then 1 else 0) := by
  induction l generalizing i with
  | nil => simp at h
  | cons x xs ih =>
      cases i with
      | zero =>
          simp only [List.getElem?_cons_zero, Option.some.injEq] at h
          subst h
          simp only [List.set_cons_zero, List.countP_cons]
          omega
      | succ n =>
          simp only [List.getElem?_cons_succ] at h
          simp only [List.set_cons_succ, List.countP_cons]
          have h2 := ih n h
          omega

theorem poolInv_init (T W : ℕ) : PoolInv T W (initState T W) := by
  refine ⟨?_, ?_, ?_, ?_, ?_, ?_, ?_, ?_, ?_, ?_⟩
  · simp [initState]
  · simp [initState]
  · simp [initState]
  · intro i h
    simp only [initState] at *
    rcases List.getElem?_eq_some.mp h with ⟨hlt, -⟩
    rw [List.length_replicate] at hlt
    simp [List.getElem?_replicate, hlt]
  · intro i st h hne
    simp only [initState] at h
    rcases List.getElem?_eq_some.mp h with ⟨hlt, hv⟩
    rw [List.getElem_replicate] at hv
    exact absurd hv.symm hne
  · simp [initState, countP_replicate]
  · intro w i h
    simp only [initState] at h
    rcases List.getElem?_eq_some.mp h with ⟨hlt, hv⟩
    rw [List.getElem_replicate] at hv
    cases hv
  · intro w1 w2 i h1 h2
    simp only [initState] at h1
    rcases List.getElem?_eq_some.mp h1 with ⟨hlt, hv⟩
    rw [List.getElem_replicate] at hv
    cases hv
  · intro i h
    simp only [initState] at h
    rcases List.getElem?_eq_some.mp h with ⟨hlt, hv⟩
    rw [List.getElem_replicate] at hv
    cases hv
  · rintro ⟨w, h⟩
    simp only [initState] at h
    rcases List.getElem?_eq_some.mp h with ⟨hlt, hv⟩
    rw [List.getElem_replicate] at hv
    cases hv

theorem poolInv_step {T W : ℕ} {s s' : PoolState} (inv : PoolInv T W s)
    (hstep : PoolStep s s') : PoolInv T W s' := by
  cases hstep with
  | claim w i hw hi hmin =>
      have hiT : i < s.status.length := (List.getElem?_eq_some.mp hi).1
      have hwW : w < s.workers.length := (List.getElem?_eq_some.mp hw).1
      have hinv0 : s.invoked[i]? = some 0 := inv.invoked_ready i hi
      have hiI : i < s.invoked.length := (List.getElem?_eq_some.mp hinv0).1
      have hgetd : s.invoked.getD i 0 = 0 := by simp [List.getD, hinv0]
      have hinv1 : (s.invoked.set i (s.invoked.getD i 0 + 1))[i]? = some 1 := by
        rw [List.getElem?_set_self hiI, hgetd]
      refine ⟨?_, ?_, ?_, ?_, ?_, ?_, ?_, ?_, ?_, ?_⟩
      · simpa using inv.len_status
      · simpa using inv.len_workers
      · simpa using inv.len_invoked
      · intro j hj
        by_cases hji : j = i
        · subst hji
          rw [List.getElem?_set_self hiT] at hj
          cases hj
        · rw [List.getElem?_set_ne (fun h => hji h.symm)] at hj
          rw [List.getElem?_set_ne (fun h => hji h.symm)]
          exact inv.invoked_ready j hj
      · intro j st hj hne
        by_cases hji : j = i
        · subst hji
          exact hinv1
        · rw [List.getElem?_set_ne (fun h => hji h.symm)] at hj
          rw [List.getElem?_set_ne (fun h => hji h.symm)]
          exact inv.invoked_other j st hj hne
      · have hc := countP_set_swap s.status i TaskStatus.running
          TaskStatus.ready (fun st => st = TaskStatus.finished) hi
        simp only [decide_eq_true_eq] at hc
        rw [if_neg (show ¬(TaskStatus.ready = TaskStatus.finished) by
          intro h; cases h),
          if_neg (show ¬(TaskStatus.running = TaskStatus.finished) by
          intro h; cases h)] at hc
        simp only [Nat.add_zero] at hc
        show s.nDone = _
        rw [inv.ndone_count]
        exact hc.symm
      · intro w' i' hw'
        by_cases hww : w' = w
        · subst hww
          rw [List.getElem?_set_self hwW] at hw'
          cases hw'
          rw [List.getElem?_set_self hiT]
        · rw [List.getElem?_set_ne (fun h => hww h.symm)] at hw'
          have hrun := inv.busy_running w' i' hw'
          have hii : i' ≠ i := by
            intro hh
            subst hh
            rw [hi] at hrun
            cases hrun
          rw [List.getElem?_set_ne (fun h => hii h.symm)]
          exact hrun
      · intro w1 w2 i' h1 h2
        by_cases h1w : w1 = w <;> by_cases h2w : w2 = w
        · rw [h1w, h2w]
        · subst h1w
          rw [List.getElem?_set_self hwW] at h1
          cases h1
          rw [List.getElem?_set_ne (fun h => h2w h.symm)] at h2
          have := inv.busy_running w2 i h2
          rw [hi] at this
          cases this
        · subst h2w
          rw [List.getElem?_set_self hwW] at h2
          cases h2
          rw [List.getElem?_set_ne (fun h => h1w h.symm)] at h1
          have := inv.busy_running w1 i h1
          rw [hi] at this
          cases this
        · rw [List.getElem?_set_ne (fun h => h1w h.symm)] at h1
          rw [List.getElem?_set_ne (fun h => h2w h.symm)] at h2
          exact inv.busy_unique w1 w2 i' h1 h2
      · intro i' h'
        by_cases hii : i' = i
        · subst hii
          exact ⟨w, by rw [List.getElem?_set_self hwW]⟩
        · rw [List.getElem?_set_ne (fun h => hii h.symm)] at h'
          obtain ⟨w', hw'⟩ := inv.running_busy i' h'
          have hww : w' ≠ w := by
            intro hh
            subst hh
            rw [hw] at hw'
            cases hw'
          exact ⟨w', by rw [List.getElem?_set_ne (fun h => hww h.symm)]; exact hw'⟩
      · rintro ⟨w', hex⟩ j
        have hww : w' ≠ w := by
          intro hh
          subst hh
          rw [List.getElem?_set_self hwW] at hex
          cases hex
        rw [List.getElem?_set_ne (fun h => hww h.symm)] at hex
        exact absurd hi (inv.exited_noready ⟨w', hex⟩ i)
  | finish w i hw =>
      have hrun : s.status[i]? = some TaskStatus.running := inv.busy_running w i hw
      have hiT : i < s.status.length := (List.getElem?_eq_some.mp hrun).1
      have hwW : w < s.workers.length := (List.getElem?_eq_some.mp hw).1
      refine ⟨?_, ?_, ?_, ?_, ?_, ?_, ?_, ?_, ?_, ?_⟩
      · simpa using inv.len_status
      · simpa using inv.len_workers
      · simpa using inv.len_invoked
      · intro j hj
        by_cases hji : j = i
        · subst hji
          rw [List.getElem?_set_self hiT] at hj
          cases hj
        · rw [List.getElem?_set_ne (fun h => hji h.symm)] at hj
          exact inv.invoked_ready j hj
      · intro j st hj hne
        by_cases hji : j = i
        · subst hji
          exact inv.invoked_other j TaskStatus.running hrun (by intro h; cases h)
        · rw [List.getElem?_set_ne (fun h => hji h.symm)] at hj
          exact inv.invoked_other j st hj hne
      · have hc := countP_set_swap s.status i TaskStatus.finished
          TaskStatus.running (fun st => st = TaskStatus.finished) hrun
        simp only [decide_eq_true_eq] at hc
        rw [if_neg (show ¬(TaskStatus.running = TaskStatus.finished) by
          intro h; cases h)] at hc
        norm_num at hc
        show s.nDone + 1 = (s.status.set i TaskStatus.finished).countP
          (fun st => st = TaskStatus.finished)
        rw [inv.ndone_count]
        omega
      · intro w' i' hw'
        by_cases hww : w' = w
        · subst hww
          rw [List.getElem?_set_self hwW] at hw'
          cases hw'
        · rw [List.getElem?_set_ne (fun h => hww h.symm)] at hw'
          have hii : i' ≠ i := by
            intro hh
            subst hh
            exact hww (inv.busy_unique w' w i' hw' hw)
          rw [List.getElem?_set_ne (fun h => hii h.symm)]
          exact inv.busy_running w' i' hw'
      · intro w1 w2 i' h1 h2
        by_cases h1w : w1 = w
        · subst h1w
          rw [List.getElem?_set_self hwW] at h1
          cases h1
        · by_cases h2w : w2 = w
          · subst h2w
            rw [List.getElem?_set_self hwW] at h2
            cases h2
          · rw [List.getElem?_set_ne (fun h => h1w h.symm)] at h1
            rw [List.getElem?_set_ne (fun h => h2w h.symm)] at h2
            exact inv.busy_unique w1 w2 i' h1 h2
      · intro i' h'
        by_cases hii : i' = i
        · subst hii
          rw [List.getElem?_set_self hiT] at h'
          cases h'
        · rw [List.getElem?_set_ne (fun h => hii h.symm)] at h'
          obtain ⟨w', hw'⟩ := inv.running_busy i' h'
          have hww : w' ≠ w := by
            intro hh
            subst hh
            rw [hw] at hw'
            cases hw'
            exact hii rfl
          exact ⟨w', by rw [List.getElem?_set_ne (fun h => hww h.symm)]; exact hw'⟩
      · rintro ⟨w', hex⟩ j
        have hww : w' ≠ w := by
          intro hh
          subst hh
          rw [List.getElem?_set_self hwW] at hex
          cases hex
        rw [List.getElem?_set_ne (fun h => hww h.symm)] at hex
        by_cases hji : j = i
        · subst hji
          rw [List.getElem?_set_self hiT]
          intro hh
          cases hh
        · rw [List.getElem?_set_ne (fun h => hji h.symm)]
          exact inv.exited_noready ⟨w', hex⟩ j
  | exit w hw hnr =>
      have hwW : w < s.workers.length := (List.getElem?_eq_some.mp hw).1
      refine ⟨inv.len_status, ?_, inv.len_invoked, inv.invoked_ready,
        inv.invoked_other, inv.ndone_count, ?_, ?_, ?_, ?_⟩
      · simpa using inv.len_workers
      · intro w' i' hw'
        by_cases hww : w' = w
        · subst hww
          rw [List.getElem?_set_self hwW] at hw'
          cases hw'
        · rw [List.getElem?_set_ne (fun h => hww h.symm)] at hw'
          exact inv.busy_running w' i' hw'
      · intro w1 w2 i' h1 h2
        by_cases h1w : w1 = w
        · subst h1w
          rw [List.getElem?_set_self hwW] at h1
          cases h1
        · by_cases h2w : w2 = w
          · subst h2w
            rw [List.getElem?_set_self hwW] at h2
            cases h2
          · rw [List.getElem?_set_ne (fun h => h1w h.symm)] at h1
            rw [List.getElem?_set_ne (fun h => h2w h.symm)] at h2
            exact inv.busy_unique w1 w2 i' h1 h2
      · intro i' h'
        obtain ⟨w', hw'⟩ := inv.running_busy i' h'
        have hww : w' ≠ w := by
          intro hh
          subst hh
          rw [hw] at hw'
          cases hw'
        exact ⟨w', by rw [List.getElem?_set_ne (fun h => hww h.symm)]; exact hw'⟩
      · intro _ j
        exact hnr j

theorem poolInv_reachable {T W : ℕ} {s : PoolState}
    (h : PoolReachable T W s) : PoolInv T W s := by
  induction h with
  | refl => exact poolInv_init T W
  | tail hsteps hstep ih => exact poolInv_step ih hstep

/-- C3: for every task count `T`, thread count `N ≥ 1` and any interleaving
of the workers (any state reachable in the transition system in which every
worker has exited, which is when `run_thread_range` returns after joining),
every slot is FINISHED, the work function was invoked exactly once per
index, the progress counter `n_done` equals `T`, having started at 0 and
never decreased at any step. -/
theorem run_thread_range_correct (N T : ℕ) (hN : 1 ≤ N) (s : PoolState)
    (hreach : PoolReachable T (min N T) s) (hfin : AllExited s) :
    (∀ i, i < T → s.status[i]? = some TaskStatus.finished) ∧
    (∀ i, i < T → s.invoked[i]? = some 1) ∧
    s.nDone = T ∧
    (∀ s1 s2, PoolStep s1 s2 → s1.nDone ≤ s2.nDone) ∧
    (initState T (min N T)).nDone = 0 := by
  have inv := poolInv_reachable hreach
  have hfinished : ∀ i, i < T → s.status[i]? = some TaskStatus.finished := by
    intro i hi
    have hlen : i < s.status.length := by rw [inv.len_status]; exact hi
    obtain ⟨st, hst⟩ : ∃ st, s.status[i]? = some st :=
      ⟨s.status[i], List.getElem?_eq_some.mpr ⟨hlen, rfl⟩⟩
    have hnotready : st ≠ TaskStatus.ready := by
      intro hh
      subst hh
      have hW : 1 ≤ min N T := le_min hN (by omega)
      have hwlen : 0 < s.workers.length := by rw [inv.len_workers]; exact hW
      obtain ⟨x, hx⟩ : ∃ x, s.workers[0]? = some x :=
        ⟨s.workers[0], List.getElem?_eq_some.mpr ⟨hwlen, rfl⟩⟩
      have hmem : x ∈ s.workers := List.getElem?_mem hx
      have : x = WorkerState.exited := hfin x hmem
      subst this
      exact inv.exited_noready ⟨0, hx⟩ i hst
    have hnotrunning : st ≠ TaskStatus.running := by
      intro hh
      subst hh
      obtain ⟨w, hw⟩ := inv.running_busy i hst
      have hmem : WorkerState.busy i ∈ s.workers := List.getElem?_mem hw
      cases hfin _ hmem
    cases st with
    | ready => exact absurd rfl hnotready
    | running => exact absurd rfl hnotrunning
    | finished => exact hst
  refine ⟨hfinished, ?_, ?_, ?_, rfl⟩
  · intro i hi
    exact inv.invoked_other i TaskStatus.finished (hfinished i hi)
      (by intro h; cases h)
  · rw [inv.ndone_count]
    have hall : ∀ st ∈ s.status, decide (st = TaskStatus.finished) = true := by
      intro st hst
      obtain ⟨i, hlen, hval⟩ := List.getElem_of_mem hst
      have h2 := hfinished i (by rw [← inv.len_status]; exact hlen)
      rw [List.getElem?_eq_some.mpr ⟨hlen, hval⟩] at h2
      injection h2 with h3
      rw [h3]
      rfl
    rw [List.countP_eq_length.mpr hall, inv.len_status]
  · intro s1 s2 hstep
    cases hstep <;> simp

/-- The final pool state of the concrete one-task, one-worker run used as
the C3 witness. -/
def finalPoolState : PoolState :=
  ⟨[TaskStatus.finished], 1, [WorkerState.exited], [1]⟩

/-- Witness for C3: a complete concrete execution with `T = 1`, `N = 1`:
claim slot 0, run it, finish it, exit. -/
theorem run_thread_range_correct_witness :
    (∀ i, i < 1 → finalPoolState.status[i]? = some TaskStatus.finished) ∧
    (∀ i, i < 1 → finalPoolState.invoked[i]? = some 1) ∧
    finalPoolState.nDone = 1 ∧
    (∀ s1 s2, PoolStep s1 s2 → s1.nDone ≤ s2.nDone) ∧
    (initState 1 (min 1 1)).nDone = 0 := by
  have h1 : PoolStep (initState 1 1)
      ⟨[TaskStatus.running], 0, [WorkerState.busy 0], [1]⟩ := by
    have hc := PoolStep.claim (initState 1 1) 0 0 rfl rfl
      (fun j hj => absurd hj (Nat.not_lt_zero j))
    exact hc
  have h2 : PoolStep ⟨[TaskStatus.running], 0, [WorkerState.busy 0], [1]⟩
      ⟨[TaskStatus.finished], 1, [WorkerState.idle], [1]⟩ := by
    have hf := PoolStep.finish
      ⟨[TaskStatus.running], 0, [WorkerState.busy 0], [1]⟩ 0 0 rfl
    exact hf
  have h3 : PoolStep ⟨[TaskStatus.finished], 1, [WorkerState.idle], [1]⟩
      finalPoolState := by
    have hnr : ∀ (j : ℕ),
        ¬ (⟨[TaskStatus.finished], 1, [WorkerState.idle], [1]⟩ :
          PoolState).status[j]? = some TaskStatus.ready := by
      intro j
      cases j with
      | zero => intro h; cases h
      | succ n => intro h; simp at h
    have he := PoolStep.exit
      ⟨[TaskStatus.finished], 1, [WorkerState.idle], [1]⟩ 0 rfl hnr
    exact he
  have hreach : PoolReachable 1 (min 1 1) finalPoolState :=
    Relation.ReflTransGen.head h1 (Relation.ReflTransGen.head h2
      (Relation.ReflTransGen.head h3 Relation.ReflTransGen.refl))
  exact run_thread_range_correct 1 1 le_rfl finalPoolState hreach
    (by intro x hx; simp [finalPoolState] at hx; exact hx)

/-! ## peaks.c: the zaef peak search

Pixel values (detector counts) are modelled as integers; the `float`
gradient arithmetic of the source maps to exact `ℚ` arithmetic. -/

/-- A detector frame: `data` is indexed by `x + width * y` as in the C. -/
structure Frame where
  width : ℕ
  height : ℕ
  data : List ℤ
deriving DecidableEq, Repr

/-- `image->data[x + width*y]`. -/
def px (f : Frame) (x y : ℕ) : ℤ := f.data.getD (x + f.width * y) 0

/-- `in_streak` (peaks.c). -/
def in_streak (x y : ℕ) : Bool :=
  decide ((512 < y ∧ y < 600 ∧ |(x:ℤ) - 489| < 15) ∨
          (600 < y ∧ |(x:ℤ) - 480| < 25))

/-- The squared-gradient magnitude computed by `search_peaks` (peaks.c):
`dx1`, `dx2` are the forward/backward differences along the fast axis, but
`dy1` reads `data[(x+1)+width*(y+1)]` — the diagonal neighbour — and `dy2`
the backward difference along the slow axis. -/
def gradZaef (f : Frame) (x y : ℕ) : ℚ :=
  let dx1 : ℚ := (px f x y : ℚ) - (px f (x+1) y : ℚ)
  let dx2 : ℚ := (px f (x-1) y : ℚ) - (px f x y : ℚ)
  let dy1 : ℚ := (px f x y : ℚ) - (px f (x+1) (y+1) : ℚ)
  let dy2 : ℚ := (px f x (y-1) : ℚ) - (px f x y : ℚ)
  let dxs := (dx1*dx1 + dx2*dx2) / 2
  let dys := (dy1*dy1 + dy2*dy2) / 2
  dxs + dys

/-- The seed pixels from which `search_peaks` starts a hill-climb: the scan
over interior pixels keeps `(x, y)` when the value is at least the
threshold 800, the pixel is not in the streak, and the squared gradient is
at least 100000. -/
def searchSeeds (f : Frame) : List (ℕ × ℕ) :=
  (List.range' 1 (f.width - 2)).flatMap (fun x =>
    (List.range' 1 (f.height - 2)).filterMap (fun y =>
      if (¬ px f x y < 800 ∧ in_streak x y = false ∧
          ¬ gradZaef f x y < 100000)
      then some (x, y) else none))

/-- C7 as claimed: the gradient uses the forward/backward differences along
both axes, and a hill-climb starts only when the value is above 800 and
G > 100000. -/
def zaefGradClaim : Prop :=
  ∀ (f : Frame) (x y : ℕ),
    1 ≤ x → x < f.width - 1 → 1 ≤ y → y < f.height - 1 →
    (gradZaef f x y =
      (((px f x y : ℚ) - (px f (x+1) y : ℚ))^2
        + ((px f (x-1) y : ℚ) - (px f x y : ℚ))^2) / 2
      + (((px f x y : ℚ) - (px f x (y+1) : ℚ))^2
        + ((px f x (y-1) : ℚ) - (px f x y : ℚ))^2) / 2) ∧
    ((x, y) ∈ searchSeeds f →
      800 < px f x y ∧ 100000 < gradZaef f x y)

/-- The frame refuting C7: all pixels zero except the diagonal neighbour
`(2,2)` of the interior pixel `(1,1)`. -/
def c7frame : Frame := ⟨3, 3, [0, 0, 0, 0, 0, 0, 0, 0, 7]⟩

/-- C7 counterexample: at `(1,1)` of `c7frame` the code's `dy1` reads the
diagonal pixel `(2,2)`, giving G = 49/2, while the claimed slow-axis
forward difference gives G = 0. -/
theorem zaefGradClaim_false : ¬ zaefGradClaim := by
  intro h
  have h2 := (h c7frame 1 1 (by norm_num) (by norm_num [c7frame])
    (by norm_num) (by norm_num [c7frame])).1
  rw [show px c7frame 1 1 = 0 from by decide,
      show px c7frame 2 1 = 0 from by decide,
      show px c7frame 0 1 = 0 from by decide,
      show px c7frame 1 0 = 0 from by decide,
      show px c7frame 1 2 = 0 from by decide] at h2
  have h3 : gradZaef c7frame 1 1 = 49/2 := by
    simp only [gradZaef]
    rw [show px c7frame 1 1 = 0 from by decide,
        show px c7frame 2 1 = 0 from by decide,
        show px c7frame 0 1 = 0 from by decide,
        show px c7frame 2 2 = 7 from by decide,
        show px c7frame 1 0 = 0 from by decide]
    norm_num
  rw [h3] at h2
  norm_num at h2

/-- C7 amended: `(x,y)` seeds a hill-climb iff it is interior, its value is
at least 800, it is outside the streak region, and G ≥ 100000, where G uses
the diagonal pixel `(x+1, y+1)` in `dy1` (not the slow-axis forward
difference). -/
theorem searchSeeds_spec (f : Frame) (x y : ℕ) :
    ((x, y) ∈ searchSeeds f ↔
      (1 ≤ x ∧ x < f.width - 1 ∧ 1 ≤ y ∧ y < f.height - 1 ∧
        800 ≤ px f x y ∧ in_streak x y = false ∧
        100000 ≤ gradZaef f x y)) ∧
    (gradZaef f x y =
      (((px f x y : ℚ) - (px f (x+1) y : ℚ))^2
        + ((px f (x-1) y : ℚ) - (px f x y : ℚ))^2) / 2
      + (((px f x y : ℚ) - (px f (x+1) (y+1) : ℚ))^2
        + ((px f x (y-1) : ℚ) - (px f x y : ℚ))^2) / 2) := by
  constructor
  · constructor
    · intro hm
      simp only [searchSeeds, List.mem_flatMap, List.mem_filterMap,
        List.mem_range'_1] at hm
      obtain ⟨x', ⟨hx1, hx2⟩, y', ⟨⟨hy1, hy2⟩, hif⟩⟩ := hm
      by_cases hc : (¬ px f x' y' < 800 ∧ in_streak x' y' = false ∧
          ¬ gradZaef f x' y' < 100000)
      · rw [if_pos hc] at hif
        injection hif with h1
        injection h1 with hxx hyy
        subst hxx
        subst hyy
        exact ⟨hx1, by omega, hy1, by omega, not_lt.mp hc.1, hc.2.1,
          not_lt.mp hc.2.2⟩
      · rw [if_neg hc] at hif
        cases hif
    · rintro ⟨h1, h2, h3, h4, h5, h6, h7⟩
      simp only [searchSeeds, List.mem_flatMap, List.mem_filterMap,
        List.mem_range'_1]
      refine ⟨x, ⟨⟨h1, by omega⟩, y, ⟨⟨h3, by omega⟩, ?_⟩⟩⟩
      rw [if_pos ⟨not_lt.mpr h5, h6, not_lt.mpr h7⟩]
  · simp only [gradZaef]
    ring

/-! ## peaks.c: the column-culling filter -/

/-- `image_remove_feature` (declared in image.h; image.c is not in the
snapshot) marks a feature invalid while leaving indices stable, and
`image_get_feature` returns NULL for removed entries: a feature list is
modelled as a list of optional fast-scan coordinates. -/
abbrev FeatureList := List (Option ℚ)

/-- Deletion of every feature in an exact column (the inner removal loop of
`cull_peaks`). -/
def removeColumn (fs : FeatureList) (xv : ℚ) : FeatureList :=
  fs.map (fun g => if g = some xv then none else g)

/-- The `ncol` count of `cull_peaks`: how many OTHER live features sit in
exactly the same column. -/
def ncolOf (fs : FeatureList) (i : ℕ) (xv : ℚ) : ℕ :=
  (List.range fs.length).countP
    (fun j => decide (j ≠ i ∧ fs.getD j none = some xv))

/-- One iteration of the outer loop of `cull_peaks` (peaks.c): take feature
`i`; if it is live and more than three other features share its exact
column, delete the whole column. -/
def cullStep (fs : FeatureList) (i : ℕ) : FeatureList :=
  match fs.getD i none with
  | none => fs
  | some xv => if ncolOf fs i xv ≤ 3 then fs else removeColumn fs xv

/-- `cull_peaks` (peaks.c): the outer loop over the feature count taken
before any deletion. -/
def cull_peaks (fs : FeatureList) : FeatureList :=
  (List.range fs.length).foldl cullStep fs

/-- Number of live features in column `xv`. -/
def colCount (fs : FeatureList) (xv : ℚ) : ℕ :=
  fs.countP (fun g => g = some xv)

/-- C8 as claimed: a column shared by more than three peaks is wholly
deleted; a column with three or fewer peaks is untouched. -/
def cullClaimC8 : Prop :=
  ∀ (fs : FeatureList) (xv : ℚ),
    (3 < colCount fs xv → colCount (cull_peaks fs) xv = 0) ∧
    (colCount fs xv ≤ 3 → ∀ i, fs.getD i none = some xv →
      (cull_peaks fs).getD i none = some xv)

/-- C8 counterexample: four peaks in column 5 survive `cull_peaks`
unchanged, because each sees only three OTHER peaks in its column. -/
theorem cullClaimC8_false : ¬ cullClaimC8 := by
  intro h
  have h4 := (h [some 5, some 5, some 5, some 5] 5).1 (by decide)
  revert h4
  decide

-- helper lemmas ------------------------------------------------------------

theorem removeColumn_getD (fs : FeatureList) (xv : ℚ) (j : ℕ) :
    (removeColumn fs xv).getD j none =
      (if fs.getD j none = some xv then none else fs.getD j none) := by
  induction fs generalizing j with
  | nil => simp [removeColumn]
  | cons a l ih =>
      cases j with
      | zero => simp [removeColumn]
      | succ n =>
          simp only [removeColumn, List.map_cons, List.getD_cons_succ]
          exact ih n

theorem removeColumn_length (fs : FeatureList) (xv : ℚ) :
    (removeColumn fs xv).length = fs.length := by
  simp [removeColumn]

theorem colCount_removeColumn (fs : FeatureList) (xv : ℚ) :
    colCount (removeColumn fs xv) xv = 0 := by
  unfold colCount removeColumn
  rw [List.countP_map]
  apply List.countP_eq_zero.mpr
  intro g _
  simp only [Function.comp]
  split_ifs with h
  · simp
  · simp [h]

theorem cullStep_length (fs : FeatureList) (i : ℕ) :
    (cullStep fs i).length = fs.length := by
  unfold cullStep
  cases fs.getD i none with
  | none => rfl
  | some xv =>
      show (if ncolOf fs i xv ≤ 3 then fs else removeColumn fs xv).length
        = fs.length
      split_ifs
      · rfl
      · exact removeColumn_length fs xv

/-- Positional form of the column count. -/
theorem colCount_eq_range (fs : FeatureList) (xv : ℚ) :
    colCount fs xv = (List.range fs.length).countP
      (fun j => decide (fs.getD j none = some xv)) := by
  induction fs with
  | nil => simp [colCount]
  | cons a l ih =>
      unfold colCount at *
      rw [List.countP_cons, List.length_cons, List.range_succ_eq_map,
        List.countP_cons, List.countP_map]
      have hcong : List.countP
          ((fun j => decide ((a :: l).getD j none = some xv)) ∘ Nat.succ)
          (List.range l.length)
          = List.countP (fun j => decide (l.getD j none = some xv))
            (List.range l.length) := by
        apply List.countP_congr
        intro j hj
        simp [Function.comp, List.getD_cons_succ]
      rw [hcong, ← ih]
      simp only [List.getD_cons_zero]

/-- Helper: removing an element that satisfies `p` from the count. -/
theorem countP_erase_self (p : ℕ → Bool) (i : ℕ) :
    ∀ (L : List ℕ), L.Nodup → i ∈ L → p i = true →
      L.countP (fun j => decide (j ≠ i) && p j) + 1 = L.countP p := by
  intro L
  induction L with
  | nil => intro _ hmem; cases hmem
  | cons a L ih =>
      intro hnd hmem hp
      rw [List.countP_cons, List.countP_cons]
      by_cases hai : a = i
      · subst hai
        have hnotin : a ∉ L := (List.nodup_cons.mp hnd).1
        have hcong : L.countP (fun j => decide (j ≠ a) && p j)
            = L.countP p := by
          apply List.countP_congr
          intro j hj
          have hji : j ≠ a := fun hh => hnotin (hh ▸ hj)
          simp [hji]
        rw [hcong]
        simp [hp]
      · have hmem' : i ∈ L := by
          rcases List.mem_cons.mp hmem with heq | h
          · exact absurd heq.symm hai
          · exact h
        have hih := ih (List.nodup_cons.mp hnd).2 hmem' hp
        have hhead : (decide (a ≠ i) && p a) = p a := by simp [hai]
        rw [hhead]
        omega

/-- With a live feature at `i`, the column holds `ncol + 1` features. -/
theorem ncolOf_succ (fs : FeatureList) (i : ℕ) (xv : ℚ)
    (h : fs.getD i none = some xv) :
    ncolOf fs i xv + 1 = colCount fs xv := by
  have hi : i < fs.length := by
    by_contra hlt
    rw [List.getD_eq_default] at h
    · cases h
    · omega
  rw [colCount_eq_range]
  unfold ncolOf
  have hcong : (List.range fs.length).countP
      (fun j => decide (j ≠ i ∧ fs.getD j none = some xv))
      = (List.range fs.length).countP
        (fun j => decide (j ≠ i) && decide (fs.getD j none = some xv)) := by
    apply List.countP_congr
    intro j _
    simp
  rw [hcong]
  exact countP_erase_self (fun j => decide (fs.getD j none = some xv)) i
    (List.range fs.length) (List.nodup_range _) (List.mem_range.mpr hi)
    (by simp only [decide_eq_true_eq]; exact h)

/-- The live features of column `xv` in `l` sit exactly where they sit in
`fs`. -/
def SameColumnProfile (fs l : FeatureList) (xv : ℚ) : Prop :=
  l.length = fs.length ∧
  ∀ (j : ℕ), (l.getD j none = some xv ↔ fs.getD j none = some xv)

theorem colCount_eq_of_profile (fs l : FeatureList) (xv : ℚ)
    (h : SameColumnProfile fs l xv) : colCount l xv = colCount fs xv := by
  rw [colCount_eq_range, colCount_eq_range, h.1]
  apply List.countP_congr
  intro j _
  simp only [decide_eq_true_eq]
  exact h.2 j

theorem cullStep_profile (fs l : FeatureList) (xv : ℚ) (i : ℕ)
    (h : SameColumnProfile fs l xv)
    (hguard : l.getD i none = some xv → ncolOf l i xv ≤ 3) :
    SameColumnProfile fs (cullStep l i) xv := by
  unfold cullStep
  cases hgi : l.getD i none with
  | none => exact h
  | some yv =>
      show SameColumnProfile fs
        (if ncolOf l i yv ≤ 3 then l else removeColumn l yv) xv
      split_ifs with hn
      · exact h
      · have hyx : yv ≠ xv := by
          intro hh
          subst hh
          exact hn (hguard hgi)
        refine ⟨by rw [removeColumn_length]; exact h.1, ?_⟩
        intro j
        rw [removeColumn_getD]
        split_ifs with hj
        · constructor
          · intro hh
            cases hh
          · intro hh
            rw [← h.2 j] at hh
            rw [hj] at hh
            injection hh with hh2
            exact absurd hh2 hyx
        · exact h.2 j

theorem colCount_cullStep_le (l : FeatureList) (i : ℕ) (xv : ℚ) :
    colCount (cullStep l i) xv ≤ colCount l xv := by
  unfold cullStep
  cases l.getD i none with
  | none => exact le_refl _
  | some yv =>
      show colCount (if ncolOf l i yv ≤ 3 then l else removeColumn l yv) xv
        ≤ colCount l xv
      split_ifs
      · exact le_refl _
      · unfold colCount removeColumn
        rw [List.countP_map]
        apply List.countP_mono_left
        intro g _ hpg
        simp only [Function.comp_apply, decide_eq_true_eq] at hpg
        split_ifs at hpg with hgy
        exact decide_eq_true hpg

theorem colCount_zero_fold (xv : ℚ) :
    ∀ (idxs : List ℕ) (l : FeatureList), colCount l xv = 0 →
      colCount (idxs.foldl cullStep l) xv = 0 := by
  intro idxs
  induction idxs with
  | nil => intro l h; exact h
  | cons i rest ih =>
      intro l h
      rw [List.foldl_cons]
      apply ih
      have := colCount_cullStep_le l i xv
      omega

theorem cull_fold_kills (fs : FeatureList) (xv : ℚ)
    (h5 : 5 ≤ colCount fs xv) :
    ∀ (idxs : List ℕ) (l : FeatureList), SameColumnProfile fs l xv →
      (∃ i ∈ idxs, l.getD i none = some xv) →
      colCount (idxs.foldl cullStep l) xv = 0 := by
  intro idxs
  induction idxs with
  | nil =>
      rintro l _ ⟨i, hmem, -⟩
      cases hmem
  | cons i rest ih =>
      rintro l hprof hex
      by_cases hgi : l.getD i none = some xv
      · have hcount := colCount_eq_of_profile fs l xv hprof
        have hns := ncolOf_succ l i xv hgi
        have hntrig : ¬ ncolOf l i xv ≤ 3 := by omega
        have hstep : cullStep l i = removeColumn l xv := by
          unfold cullStep
          rw [hgi]
          show (if ncolOf l i xv ≤ 3 then l else removeColumn l xv)
            = removeColumn l xv
          rw [if_neg hntrig]
        rw [List.foldl_cons, hstep]
        exact colCount_zero_fold xv rest _ (colCount_removeColumn l xv)
      · have hprof' := cullStep_profile fs l xv i hprof
          (fun hh => absurd hh hgi)
        obtain ⟨i', hmem', hgi'⟩ := hex
        have hmem'' : i' ∈ rest := by
          rcases List.mem_cons.mp hmem' with heq | hm
          · exfalso
            rw [heq] at hgi'
            exact hgi hgi'
          · exact hm
        rw [List.foldl_cons]
        refine ih (cullStep l i) hprof' ⟨i', hmem'', ?_⟩
        rw [hprof'.2 i', ← hprof.2 i']
        exact hgi'

theorem cull_fold_profile (fs : FeatureList) (xv : ℚ)
    (h4 : colCount fs xv ≤ 4) :
    ∀ (idxs : List ℕ) (l : FeatureList), SameColumnProfile fs l xv →
      SameColumnProfile fs (idxs.foldl cullStep l) xv := by
  intro idxs
  induction idxs with
  | nil => intro l h; exact h
  | cons i rest ih =>
      intro l h
      rw [List.foldl_cons]
      refine ih _ (cullStep_profile fs l xv i h ?_)
      intro hgi
      have hns := ncolOf_succ l i xv hgi
      have hcount := colCount_eq_of_profile fs l xv h
      omega

/-- C8 amended: the cull triggers on a column only when a feature has MORE
THAN THREE OTHER features in exactly its column, i.e. when the column holds
at least five peaks — such a column is wholly deleted; a column with four
or fewer peaks is left entirely intact. -/
theorem cull_peaks_spec (fs : FeatureList) (xv : ℚ) :
    (5 ≤ colCount fs xv → colCount (cull_peaks fs) xv = 0) ∧
    (colCount fs xv ≤ 4 → ∀ (i : ℕ), fs.getD i none = some xv →
      (cull_peaks fs).getD i none = some xv) := by
  have hrefl : SameColumnProfile fs fs xv := ⟨rfl, fun _ => Iff.rfl⟩
  constructor
  · intro h5
    have hpos : 0 < colCount fs xv := by omega
    obtain ⟨g, hg, hpg⟩ := List.countP_pos_iff.mp hpos
    obtain ⟨i, hlen, hval⟩ := List.getElem_of_mem hg
    have hsome : fs[i]? = some g := List.getElem?_eq_some.mpr ⟨hlen, hval⟩
    have hgd : fs.getD i none = some xv := by
      simp only [decide_eq_true_eq] at hpg
      simp [List.getD, hsome, hpg]
    exact cull_fold_kills fs xv h5 (List.range fs.length) fs hrefl
      ⟨i, List.mem_range.mpr hlen, hgd⟩
  · intro h4 i hgd
    have hprof := cull_fold_profile fs xv h4 (List.range fs.length) fs hrefl
    unfold cull_peaks
    rw [hprof.2 i]
    exact hgd

/-- Witness for C8's amended theorem: five peaks in one column are all
deleted, and a second column of one peak survives. -/
theorem cull_peaks_spec_witness :
    (5 ≤ colCount [some 5, some 5, some 5, some 5, some 5] 5 →
      colCount (cull_peaks [some 5, some 5, some 5, some 5, some 5]) 5 = 0) ∧
    (colCount [some 5, some 5, some 5, some 5, some 5] 5 ≤ 4 →
      ∀ (i : ℕ),
        ([some 5, some 5, some 5, some 5, some 5] : FeatureList).getD i none
          = some 5 →
        (cull_peaks [some 5, some 5, some 5, some 5, some 5]).getD i none
          = some 5) :=
  cull_peaks_spec [some 5, some 5, some 5, some 5, some 5] 5

-- ### the hill-climb of search_peaks

/-- The walker state inside the hill-climb of `search_peaks`:
current mask position, current window maximum and the `did_something`
flag. -/
structure ClimbState where
  mx : ℕ
  my : ℕ
  maxv : ℤ
  did : Bool
deriving DecidableEq, Repr

/-- The inner `sx` loop of the hill-climb window scan.  As in the C, the
loop bound `smallest(mask_x + PEAK_WINDOW_SIZE/2, width-1)` is re-evaluated
against the CURRENT mask each iteration. -/
def innerX (f : Frame) : ℕ → ℕ → ℕ → ClimbState → ClimbState
  | 0, _, _, st => st
  | fuel+1, sx, sy, st =>
    if sx < min (st.mx + 5) (f.width - 1) then
      innerX f fuel (sx+1) sy
        (if st.maxv < px f sx sy then ⟨sx, sy, px f sx sy, true⟩ else st)
    else st

/-- The outer `sy` loop of the hill-climb window scan. -/
def outerY (f : Frame) : ℕ → ℕ → ClimbState → ClimbState
  | 0, _, st => st
  | fuel+1, sy, st =>
    if sy < min (st.my + 5) (f.height - 1) then
      outerY f fuel (sy+1) (innerX f (f.width + 11) (st.mx - 5) sy st)
    else st

/-- One pass of the window scan: start from the current mask value with
`did_something = 0`. -/
def scanWindow (f : Frame) (mx my : ℕ) : ClimbState :=
  outerY f (f.height + 11) (my - 5) ⟨mx, my, px f mx my, false⟩

/-- Squared distance between the walker and the seed (`distance(...) > 50`
in the C is `distSqZ > 2500` exactly). -/
def distSqZ (x y mx my : ℕ) : ℤ := ((mx:ℤ) - x)^2 + ((my:ℤ) - y)^2

/-- The `do … while(did_something)` loop of `search_peaks`, with the
in-loop abort once the walker drifts more than 50 pixels from the seed. -/
def climb (f : Frame) (x y : ℕ) : ℕ → ℕ → ℕ → ℕ × ℕ
  | 0, mx, my => (mx, my)
  | fuel+1, mx, my =>
    let st := scanWindow f mx my
    if 2500 < distSqZ x y st.mx st.my then (st.mx, st.my)
    else if st.did then climb f x y fuel st.mx st.my
    else (st.mx, st.my)

/-- The hill-climb endpoint for seed `(x,y)`; each improving scan strictly
increases the integer maximum, so `width*height + 1` outer passes always
reach the fixed point. -/
def climbResult (f : Frame) (x y : ℕ) : ℕ × ℕ :=
  climb f x y (f.width * f.height + 1) x y

/-- `is_hot_pixel` (peaks.c): `v = data/2` with C integer division, and the
pixel is hot when every one of its 8 neighbours is strictly below `v`. -/
def is_hot_pixel (f : Frame) (x y : ℕ) : Bool :=
  let v := Int.tdiv (1 * px f x y) 2
  if f.width ≤ x + 1 then false
  else if x < 1 then false
  else if f.height ≤ y + 1 then false
  else if y < 1 then false
  else
    ([(x-1, y-1), (x-1, y), (x-1, y+1), (x, y-1), (x, y+1),
      (x+1, y-1), (x+1, y), (x+1, y+1)] : List (ℕ × ℕ)).all
      (fun c => px f c.1 c.2 < v)

/-- The integration-disk offsets of `integrate_peak` (peaks.c): `x` and `y`
run from `-INTEGRATION_RADIUS` to `INTEGRATION_RADIUS - 1` and the circular
mask keeps `x² + y² ≤ 100`. -/
def integrationOffsets : List (ℤ × ℤ) :=
  (List.range 20).flatMap (fun i =>
    (List.range 20).filterMap (fun j =>
      let dx : ℤ := (i:ℤ) - 10
      let dy : ℤ := (j:ℤ) - 10
      if 100 < dx*dx + dy*dy then none else some (dx, dy)))

/-- One step of the `total` accumulation in `integrate_peak` (peaks.c):
pixels outside the panel are skipped, pixels inside are added. -/
def integrateStep (f : Frame) (xp yp : ℕ) (acc : ℤ) (d : ℤ × ℤ) : ℤ :=
  if (f.width:ℤ) ≤ (xp:ℤ) + d.1 ∨ (xp:ℤ) + d.1 < 0 ∨
     (f.height:ℤ) ≤ (yp:ℤ) + d.2 ∨ (yp:ℤ) + d.2 < 0 then acc
  else acc + f.data.getD (((xp:ℤ) + d.1) + (f.width:ℤ) * ((yp:ℤ) + d.2)).toNat 0

/-- The `total` accumulated by `integrate_peak` (peaks.c) over the clipped
integration disk centred at `(xp, yp)`. -/
def integrate_total (f : Frame) (xp yp : ℕ) : ℤ :=
  integrationOffsets.foldl (integrateStep f xp yp) 0

/-- The conditions under which `search_peaks` (peaks.c) calls
`integrate_peak`: interior seed passing the threshold, streak and gradient
tests, walker within 50 pixels of the seed, endpoint not a hot pixel. -/
def CallsIntegrate (f : Frame) (x y : ℕ) : Prop :=
  (1 ≤ x ∧ x < f.width - 1 ∧ 1 ≤ y ∧ y < f.height - 1) ∧
  ¬ px f x y < 800 ∧ in_streak x y = false ∧
  ¬ gradZaef f x y < 100000 ∧
  ¬ 2500 < distSqZ x y (climbResult f x y).1 (climbResult f x y).2 ∧
  is_hot_pixel f (climbResult f x y).1 (climbResult f x y).2 = false

/-- C10 as claimed: every integration performed by `search_peaks` has a
strictly positive `total`. -/
def integrateClaimC10 : Prop :=
  ∀ (f : Frame) (x y : ℕ), CallsIntegrate f x y →
    0 < integrate_total f (climbResult f x y).1 (climbResult f x y).2

/-- The frame refuting C10: a bright pair (600 at `(0,1)`, 1000 at `(1,1)`)
surrounded by negative pixels. -/
def c10frame : Frame :=
  ⟨4, 4, [-200, -200, -200, -200,
          600, 1000, -200, -200,
          -200, -200, -200, -200,
          -200, -200, -200, -200]⟩

set_option maxRecDepth 8000

/-- C10 counterexample: the seed `(1,1)` of `c10frame` passes every test and
is its own climb endpoint, but the integration disk covers the whole frame
and sums to `-1200`. -/
theorem integrateClaimC10_false : ¬ integrateClaimC10 := by
  intro h
  have hcall : CallsIntegrate c10frame 1 1 := by
    refine ⟨by decide, by decide, by decide, ?_, by decide, by decide⟩
    have hg : gradZaef c10frame 1 1 = 2240000 := by
      simp only [gradZaef]
      rw [show px c10frame 1 1 = 1000 from by decide,
          show px c10frame 2 1 = -200 from by decide,
          show px c10frame 0 1 = 600 from by decide,
          show px c10frame 2 2 = -200 from by decide,
          show px c10frame 1 0 = -200 from by decide]
      norm_num
    rw [hg]
    norm_num
  have htot := h c10frame 1 1 hcall
  rw [show (climbResult c10frame 1 1).1 = 1 from by decide,
      show (climbResult c10frame 1 1).2 = 1 from by decide,
      show integrate_total c10frame 1 1 = -1200 from by decide] at htot
  exact absurd htot (by norm_num)

/-- Invariant carried by the hill-climb: the recorded maximum is the pixel
value at the mask, it never drops below `m0`, and the mask stays on the
panel. -/
def ClimbInv (f : Frame) (m0 : ℤ) (st : ClimbState) : Prop :=
  st.maxv = px f st.mx st.my ∧ m0 ≤ st.maxv ∧ st.mx < f.width ∧ st.my < f.height

/-- The inner window loop preserves the climb invariant. -/
lemma innerX_inv (f : Frame) (m0 : ℤ) :
    ∀ (fuel sx sy : ℕ) (st : ClimbState), sy < f.height → ClimbInv f m0 st →
    ClimbInv f m0 (innerX f fuel sx sy st) := by
  intro fuel
  induction fuel with
  | zero => intro sx sy st _ h; simpa [innerX] using h
  | succ n ih =>
    intro sx sy st hsy h
    rw [innerX]
    split
    case isTrue hlt =>
      apply ih _ _ _ hsy
      split
      case isTrue himp =>
        have hb := Nat.lt_min.mp hlt
        exact ⟨rfl, le_of_lt (lt_of_le_of_lt h.2.1 himp),
          show sx < f.width by omega, hsy⟩
      case isFalse _ => exact h
    case isFalse _ => exact h

/-- The outer window loop preserves the climb invariant. -/
lemma outerY_inv (f : Frame) (m0 : ℤ) :
    ∀ (fuel sy : ℕ) (st : ClimbState), ClimbInv f m0 st →
    ClimbInv f m0 (outerY f fuel sy st) := by
  intro fuel
  induction fuel with
  | zero => intro sy st h; simpa [outerY] using h
  | succ n ih =>
    intro sy st h
    rw [outerY]
    split
    case isTrue hlt =>
      have hb := Nat.lt_min.mp hlt
      exact ih _ _ (innerX_inv f m0 _ _ _ _ (by omega) h)
    case isFalse _ => exact h

/-- A full window scan preserves the climb invariant, starting from the
current mask value. -/
lemma scanWindow_inv (f : Frame) (m0 : ℤ) (mx my : ℕ)
    (hmx : mx < f.width) (hmy : my < f.height) (hm0 : m0 ≤ px f mx my) :
    ClimbInv f m0 (scanWindow f mx my) :=
  outerY_inv f m0 _ _ _ ⟨rfl, hm0, hmx, hmy⟩

/-- The `do … while` loop of `search_peaks` keeps the walker on the panel
and never lets the running maximum drop. -/
lemma climb_inv (f : Frame) (x y : ℕ) (m0 : ℤ) :
    ∀ (fuel mx my : ℕ), mx < f.width → my < f.height → m0 ≤ px f mx my →
    (climb f x y fuel mx my).1 < f.width ∧ (climb f x y fuel mx my).2 < f.height ∧
    m0 ≤ px f (climb f x y fuel mx my).1 (climb f x y fuel mx my).2 := by
  intro fuel
  induction fuel with
  | zero => intro mx my hmx hmy hm0; exact ⟨hmx, hmy, hm0⟩
  | succ n ih =>
    intro mx my hmx hmy hm0
    have hinv := scanWindow_inv f m0 mx my hmx hmy hm0
    have hmem : m0 ≤ px f (scanWindow f mx my).mx (scanWindow f mx my).my :=
      hinv.1 ▸ hinv.2.1
    rw [climb]
    split
    case isTrue _ => exact ⟨hinv.2.2.1, hinv.2.2.2, hmem⟩
    case isFalse _ =>
      split
      case isTrue _ => exact ih _ _ hinv.2.2.1 hinv.2.2.2 hmem
      case isFalse _ => exact ⟨hinv.2.2.1, hinv.2.2.2, hmem⟩

/-- Reading any offset of a list of nonnegative values gives a nonnegative
value. -/
lemma getD_nonneg (l : List ℤ) (h : ∀ v ∈ l, 0 ≤ v) :
    ∀ (n : ℕ), 0 ≤ l.getD n 0 := by
  induction l with
  | nil => intro n; simp [List.getD]
  | cons a l ih =>
    intro n
    cases n with
    | zero => exact h a (List.mem_cons_self a l)
    | succ m =>
      simpa [List.getD] using ih (fun v hv => h v (List.mem_cons_of_mem a hv)) m

/-- With nonnegative pixel data, one integration step never decreases the
accumulator. -/
lemma integrateStep_ge (f : Frame) (xp yp : ℕ)
    (hpos : ∀ v ∈ f.data, 0 ≤ v) (acc : ℤ) (d : ℤ × ℤ) :
    acc ≤ integrateStep f xp yp acc d := by
  unfold integrateStep
  split
  · exact le_refl acc
  · have := getD_nonneg f.data hpos (((xp:ℤ) + d.1) + (f.width:ℤ) * ((yp:ℤ) + d.2)).toNat
    linarith

/-- With nonnegative pixel data, the integration fold never decreases the
accumulator. -/
lemma foldl_integrateStep_ge (f : Frame) (xp yp : ℕ)
    (hpos : ∀ v ∈ f.data, 0 ≤ v) :
    ∀ (l : List (ℤ × ℤ)) (acc : ℤ), acc ≤ l.foldl (integrateStep f xp yp) acc := by
  intro l
  induction l with
  | nil => intro acc; simp
  | cons d l ih =>
    intro acc
    calc acc ≤ integrateStep f xp yp acc d := integrateStep_ge f xp yp hpos acc d
    _ ≤ l.foldl (integrateStep f xp yp) (integrateStep f xp yp acc d) := ih _

/-- The integration step at the central offset adds exactly the centre
pixel when the centre lies on the panel. -/
lemma integrateStep_center (f : Frame) (xp yp : ℕ)
    (hxp : xp < f.width) (hyp : yp < f.height) (acc : ℤ) :
    integrateStep f xp yp acc ((0:ℤ), (0:ℤ)) = acc + px f xp yp := by
  unfold integrateStep
  rw [if_neg (by push_cast; omega)]
  have hidx : ((xp:ℤ) + 0) + (f.width:ℤ) * ((yp:ℤ) + 0) = ((xp + f.width * yp : ℕ) : ℤ) := by
    push_cast; ring
  rw [hidx, Int.toNat_natCast]
  rfl

/-- With nonnegative data, as soon as the disk contains the central offset
the fold is at least the accumulator plus the centre pixel. -/
lemma foldl_integrateStep_center (f : Frame) (xp yp : ℕ)
    (hpos : ∀ v ∈ f.data, 0 ≤ v) (hxp : xp < f.width) (hyp : yp < f.height) :
    ∀ (l : List (ℤ × ℤ)), ((0:ℤ), (0:ℤ)) ∈ l →
    ∀ (acc : ℤ), acc + px f xp yp ≤ l.foldl (integrateStep f xp yp) acc := by
  intro l
  induction l with
  | nil => intro hmem; exact absurd hmem (List.not_mem_nil _)
  | cons d l ih =>
    intro hmem acc
    rcases List.mem_cons.mp hmem with hd | hl
    · subst hd
      rw [List.foldl_cons, integrateStep_center f xp yp hxp hyp]
      exact foldl_integrateStep_ge f xp yp hpos l _
    · calc acc + px f xp yp
          ≤ integrateStep f xp yp acc d + px f xp yp := by
            have := integrateStep_ge f xp yp hpos acc d; linarith
      _ ≤ l.foldl (integrateStep f xp yp) (integrateStep f xp yp acc d) := ih hl _

/-- The central offset is part of the integration disk. -/
lemma center_mem_integrationOffsets : ((0:ℤ), (0:ℤ)) ∈ integrationOffsets := by
  decide

/-- C10, amended: when the pixel data are nonnegative, every integration
performed by `search_peaks` sums at least the climb endpoint's value, which
is at least the 800 seed threshold, so `total` is strictly positive.  (On
data with negative pixels the claim fails: see the counterexample.) -/
theorem integrate_total_pos_of_nonneg (f : Frame) (x y : ℕ)
    (hpos : ∀ v ∈ f.data, 0 ≤ v) (hcall : CallsIntegrate f x y) :
    800 ≤ integrate_total f (climbResult f x y).1 (climbResult f x y).2 ∧
    0 < integrate_total f (climbResult f x y).1 (climbResult f x y).2 := by
  obtain ⟨⟨hx1, hx2, hy1, hy2⟩, hthr, -, -, -, -⟩ := hcall
  have hxw : x < f.width := by omega
  have hyh : y < f.height := by omega
  have hseed : (800:ℤ) ≤ px f x y := not_lt.mp hthr
  have hend : (climbResult f x y).1 < f.width ∧ (climbResult f x y).2 < f.height ∧
      (800:ℤ) ≤ px f (climbResult f x y).1 (climbResult f x y).2 :=
    climb_inv f x y 800 (f.width * f.height + 1) x y hxw hyh hseed
  have hbound :
      (0:ℤ) + px f (climbResult f x y).1 (climbResult f x y).2 ≤
      integrate_total f (climbResult f x y).1 (climbResult f x y).2 :=
    foldl_integrateStep_center f _ _ hpos hend.1 hend.2.1
      integrationOffsets center_mem_integrationOffsets 0
  have h800 := hend.2.2
  constructor
  · rw [zero_add] at hbound
    exact le_trans h800 hbound
  · rw [zero_add] at hbound
    linarith

/-- The nonnegative sibling of the counterexample frame: same bright pair,
zeros elsewhere. -/
def c10goodFrame : Frame :=
  ⟨4, 4, [0, 0, 0, 0,
          600, 1000, 0, 0,
          0, 0, 0, 0,
          0, 0, 0, 0]⟩

/-- Witness for the amended C10 theorem on a concrete nonnegative frame. -/
theorem integrate_total_pos_of_nonneg_witness :
    0 < integrate_total c10goodFrame
      (climbResult c10goodFrame 1 1).1 (climbResult c10goodFrame 1 1).2 := by
  refine (integrate_total_pos_of_nonneg c10goodFrame 1 1 (by decide) ?_).2
  refine ⟨by decide, by decide, by decide, ?_, by decide, by decide⟩
  have hg : gradZaef c10goodFrame 1 1 = 1580000 := by
    simp only [gradZaef]
    rw [show px c10goodFrame 1 1 = 1000 from by decide,
        show px c10goodFrame 2 1 = 0 from by decide,
        show px c10goodFrame 0 1 = 600 from by decide,
        show px c10goodFrame 2 2 = 0 from by decide,
        show px c10goodFrame 1 0 = 0 from by decide]
    norm_num
  rw [hg]
  norm_num

end CrystFEL
